import Mathlib

/-!
Shallow embedding of the Minesweeper game engine (`game.service.ts`) of
ng-minesweeper-pro, together with proofs of the specification claims.

Conventions of the embedding:
* JavaScript `number` fields of the game state (`rows`, `cols`, `mines`,
  `flagsPlaced`, `minesLeft`, `hintsLeft`, timestamps) are modelled as `Int`;
  tile coordinates, which are always produced from array indices, are `Nat`.
* The board `Tile[][]` is a `List (List Tile)`; `board[y][x]` after a bounds
  guard is `getTile`, which returns a default tile out of range (the guarded
  code never reaches that case).
* `Math.random()`-driven choices are a parameter `rand : Nat → Nat`; the
  Fisher-Yates index `Math.floor(Math.random()*(i+1))` is `rand i % (i+1)`,
  so every outcome of the real shuffle corresponds to some `rand`.
* The breadth-first flood-fill `while` loop is given explicit gas
  `9*rows*cols + 1`; the characterization theorems below show the queue is
  exhausted before the gas is.
* The timer subscription and `localStorage` persistence are external effects
  with no influence on the game snapshot fields treated here; they are not
  modelled.
-/

namespace Minesweeper

structure Tile where
  x : Nat
  y : Nat
  isMine : Bool
  isRevealed : Bool
  isFlagged : Bool
  adjacentMines : Nat
  deriving DecidableEq, Repr

inductive GameStatus where
  | Ready | Playing | Won | Lost
  deriving DecidableEq, Repr

inductive Difficulty where
  | Beginner | Intermediate | Expert | Custom
  deriving DecidableEq, Repr

abbrev Board := List (List Tile)

structure GameState where
  board : Board
  rows : Int
  cols : Int
  mines : Int
  flagsPlaced : Int
  status : GameStatus
  firstClick : Bool
  startedAt : Option Int
  elapsedMs : Int
  minesLeft : Int
  difficulty : Difficulty
  hintsLeft : Int
  deriving DecidableEq, Repr

/-- Default tile, used only to totalize guarded array indexing. -/
def dTile : Tile := ⟨0, 0, false, false, false, 0⟩

/-- `board[y][x]` (total; the source only indexes after a bounds guard). -/
def getTile (b : Board) (y x : Nat) : Tile := (b.getD y []).getD x dTile

/-- Functional update of `board[y][x] = t` (the source copies the row first). -/
def setTile (b : Board) (y x : Nat) (t : Tile) : Board :=
  b.set y ((b.getD y []).set x t)

/-- `createMatrix(rows, cols, factory)`; `Array.from({length: n})` of a
non-positive `n` is empty, hence `Int.toNat`. -/
def createMatrix (rows cols : Int) (f : Nat → Nat → Tile) : Board :=
  (List.range rows.toNat).map fun y => (List.range cols.toNat).map fun x => f y x

/-- `initialState(rows, cols, mines, difficulty)`. -/
def initialState (rows cols mines : Int) (difficulty : Difficulty) : GameState :=
  { board := createMatrix rows cols fun y x =>
      { x := x, y := y, isMine := false, isRevealed := false, isFlagged := false,
        adjacentMines := 0 }
    rows := rows, cols := cols, mines := mines
    flagsPlaced := 0, minesLeft := mines
    status := GameStatus.Ready, firstClick := true
    startedAt := none, elapsedMs := 0
    difficulty := difficulty, hintsLeft := 3 }

/-- `newGame` (the timer stop is an external effect). -/
def newGame (rows cols mines : Int) (difficulty : Difficulty) : GameState :=
  initialState rows cols mines difficulty

/-- `restart()`. -/
def restart (s : GameState) : GameState :=
  newGame s.rows s.cols s.mines s.difficulty

/-- `tileAt(s, y, x)`: bounds-guarded lookup returning `undefined` out of
range (or when the board is shorter than the declared dimensions). -/
def tileAt (s : GameState) (y x : Int) : Option Tile :=
  if y < 0 ∨ s.rows ≤ y ∨ x < 0 ∨ s.cols ≤ x then none
  else (s.board[y.toNat]?).bind fun row => row[x.toNat]?

/-- The 8 neighbor offsets `(dy, dx)` in the source's iteration order. -/
def offsets : List (Int × Int) :=
  [(-1,-1), (-1,0), (-1,1), (0,-1), (0,1), (1,-1), (1,0), (1,1)]

/-- The 9 offsets `(dy, dx)` including `(0,0)`, as iterated when building
the first-click exclusion set. -/
def offsets9 : List (Int × Int) :=
  [(-1,-1), (-1,0), (-1,1), (0,-1), (0,0), (0,1), (1,-1), (1,0), (1,1)]

/-- `neighbors(board, x, y)`: the in-bounds 8-neighbors, bounds taken from
`board.length` and `board[0].length`. -/
def neighbors (b : Board) (x y : Nat) : List Tile :=
  offsets.filterMap fun p =>
    if 0 ≤ (y : Int) + p.1 ∧ (y : Int) + p.1 < (b.length : Int) ∧
       0 ≤ (x : Int) + p.2 ∧ (x : Int) + p.2 < ((b.getD 0 []).length : Int)
    then some (getTile b ((y : Int) + p.1).toNat ((x : Int) + p.2).toNat)
    else none

/-- One step of `recalculateAdjacency`'s nested loop at cell `(y, x)`. -/
def recalcCell (b : Board) (y x : Nat) : Board :=
  let t := getTile b y x
  if t.isMine then setTile b y x { t with adjacentMines := 0 }
  else setTile b y x
    { t with adjacentMines := (neighbors b x y).countP (·.isMine) }

/-- `recalculateAdjacency(board)`. -/
def recalculateAdjacency (b : Board) : Board :=
  (List.range b.length).foldl
    (fun bb y => (List.range (b.getD 0 []).length).foldl
      (fun bb2 x => recalcCell bb2 y x) bb) b

/-- `revealAllMines(board)`. -/
def revealAllMines (b : Board) : Board :=
  b.map fun row => row.map fun t =>
    if t.isMine then { t with isRevealed := true } else t

/-- `countHiddenNonMines(board)`. -/
def countHiddenNonMines (b : Board) : Nat :=
  b.foldl (fun acc row => acc + row.countP fun t => !t.isMine && !t.isRevealed) 0

/-- Array element swap `[c[i], c[j]] = [c[j], c[i]]`. -/
def listSwap (l : List Nat) (i j : Nat) : List Nat :=
  (l.set i (l.getD j 0)).set j (l.getD i 0)

/-- The Fisher-Yates loop, `i` counting down to 1; `rand i % (i+1)` models
`Math.floor(Math.random() * (i + 1))`. -/
def fyAux (rand : Nat → Nat) : List Nat → Nat → List Nat
  | l, 0 => l
  | l, i+1 => fyAux rand (listSwap l (i+1) (rand (i+1) % (i+2))) i

def fyShuffle (rand : Nat → Nat) (l : List Nat) : List Nat :=
  fyAux rand l (l.length - 1)

/-- `list.slice(0, n)` for a possibly negative JavaScript `n`. -/
def jsSlice0 (l : List Nat) (n : Int) : List Nat :=
  if n < 0 then l.take ((l.length : Int) + n).toNat else l.take n.toNat

/-- The first-click exclusion set: indices of the safe tile and its
in-bounds neighbors. -/
def forbiddenIndices (s : GameState) (safeX safeY : Nat) : List Nat :=
  offsets9.filterMap fun p =>
    let y : Int := (safeY : Int) + p.1
    let x : Int := (safeX : Int) + p.2
    if 0 ≤ y ∧ y < s.rows ∧ 0 ≤ x ∧ x < s.cols
    then some (y * s.cols + x).toNat else none

/-- The candidate indices (all cells minus the exclusion set). -/
def candidateIndices (s : GameState) (safeX safeY : Nat) : List Nat :=
  (List.range (s.rows * s.cols).toNat).filter fun i =>
    !((forbiddenIndices s safeX safeY).contains i)

/-- The chosen mine positions: the first `mines` of the shuffled candidates. -/
def minePositions (rand : Nat → Nat) (s : GameState) (safeX safeY : Nat) :
    List Nat :=
  jsSlice0 (fyShuffle rand (candidateIndices s safeX safeY)) s.mines

/-- One step of the mine-marking loop: mark cell `i` if `i` is a chosen
position (`y = ⌊i / cols⌋`, `x = i % cols`). -/
def mineStep (mp : List Nat) (cols : Nat) (bb : Board) (i : Nat) : Board :=
  if mp.contains i then
    setTile bb (i / cols) (i % cols)
      { getTile bb (i / cols) (i % cols) with isMine := true }
  else bb

/-- `placeMinesAfterFirstClick(s, safeX, safeY)`. -/
def placeMinesAfterFirstClick (rand : Nat → Nat) (s : GameState)
    (safeX safeY : Nat) : GameState :=
  let board := (List.range (s.rows * s.cols).toNat).foldl
    (mineStep (minePositions rand s safeX safeY) s.cols.toNat) s.board
  { s with board := recalculateAdjacency board }

/-- `enqueue(x, y)` of `revealFloodFill`: bounds-check, then visited-check,
then mark visited and push. State is `(queue, visited)`. -/
def enqueue (rows cols : Nat) (st : List (Nat × Nat) × List (Nat × Nat))
    (x y : Int) : List (Nat × Nat) × List (Nat × Nat) :=
  if x < 0 ∨ (cols : Int) ≤ x ∨ y < 0 ∨ (rows : Int) ≤ y then st
  else
    let c := (x.toNat, y.toNat)
    if c ∈ st.2 then st else (st.1 ++ [c], c :: st.2)

/-- The `while (queue.length)` loop of `revealFloodFill`, with explicit gas;
`revealFloodFill` supplies gas that the characterization below proves
sufficient. -/
def ffLoop (rows cols : Nat) :
    Nat → List (Nat × Nat) → List (Nat × Nat) → Board → Board
  | 0, _, _, out => out
  | _+1, [], _, out => out
  | gas+1, (x, y) :: rest, visited, out =>
    let t := getTile out y x
    if t.isRevealed ∨ t.isFlagged then ffLoop rows cols gas rest visited out
    else
      let out2 := setTile out y x { t with isRevealed := true }
      if t.adjacentMines = 0 ∧ ¬t.isMine then
        let st := offsets.foldl
          (fun st p => enqueue rows cols st ((x : Int) + p.2) ((y : Int) + p.1))
          (rest, visited)
        ffLoop rows cols gas st.1 st.2 out2
      else ffLoop rows cols gas rest visited out2

/-- `revealFloodFill(board, startX, startY)`. -/
def revealFloodFill (b : Board) (startX startY : Nat) : Board :=
  let rows := b.length
  let cols := (b.getD 0 []).length
  let st := enqueue rows cols ([], []) startX startY
  ffLoop rows cols (9 * rows * cols + 1) st.1 st.2 b

/-- `toggleFlag(tile)`. -/
def toggleFlag (s : GameState) (x y : Int) : GameState :=
  if s.status = GameStatus.Lost ∨ s.status = GameStatus.Won then s
  else match tileAt s y x with
  | none => s
  | some t =>
    if t.isRevealed then s
    else
      let flagged := !t.isFlagged
      let board := setTile s.board t.y t.x { t with isFlagged := flagged }
      let flagsPlaced := s.flagsPlaced + (if flagged then 1 else -1)
      let minesLeft := max 0 (s.mines - flagsPlaced)
      { s with board := board, flagsPlaced := flagsPlaced, minesLeft := minesLeft }

/-- `reveal(tile)`; `rand` feeds the deferred mine placement and `now` is
`Date.now()`. -/
def reveal (rand : Nat → Nat) (now : Int) (s : GameState) (x y : Int) :
    GameState :=
  if s.status = GameStatus.Lost ∨ s.status = GameStatus.Won then s
  else match tileAt s y x with
  | none => s
  | some t =>
    if t.isRevealed ∨ t.isFlagged then s
    else
      let s1 :=
        if s.firstClick then
          { placeMinesAfterFirstClick rand s t.x t.y with
            status := GameStatus.Playing, firstClick := false,
            startedAt := some now }
        else s
      if t.isMine then
        { s1 with board := revealAllMines s1.board, status := GameStatus.Lost }
      else
        let s2 := { s1 with board := revealFloodFill s1.board t.x t.y }
        if countHiddenNonMines s2.board = 0 then
          { s2 with status := GameStatus.Won }
        else s2

/-- The neighbor-processing loop of `chord`, folding over the neighbor list
captured from the pre-chord board; accumulates `(board, hitMine)`. -/
def chordStep (acc : Board × Bool) (n : Tile) : Board × Bool :=
  if ¬n.isFlagged ∧ ¬n.isRevealed then
    if n.isMine then (setTile acc.1 n.y n.x { n with isRevealed := true }, true)
    else (revealFloodFill acc.1 n.x n.y, acc.2)
  else acc

/-- `chord(tile)`. -/
def chord (s : GameState) (x y : Int) : GameState :=
  if s.status ≠ GameStatus.Playing then s
  else match tileAt s y x with
  | none => s
  | some t =>
    if ¬t.isRevealed ∨ t.isMine ∨ t.adjacentMines = 0 then s
    else
      let ns := neighbors s.board t.x t.y
      let flags := ns.countP (·.isFlagged)
      if flags ≠ t.adjacentMines then s
      else
        let res := ns.foldl chordStep (s.board, false)
        if res.2 then
          { s with board := revealAllMines res.1, status := GameStatus.Lost }
        else
          let s2 := { s with board := res.1 }
          if countHiddenNonMines s2.board = 0 then
            { s2 with status := GameStatus.Won }
          else s2

/-- The row-major scan of `useHint` for the first non-mine, unrevealed,
unflagged tile. -/
def findHintTile (s : GameState) : Option (Nat × Nat) :=
  (List.range s.rows.toNat).findSome? fun y =>
    (List.range s.cols.toNat).findSome? fun x =>
      let t := getTile s.board y x
      if !t.isMine && !t.isRevealed && !t.isFlagged then some (x, y) else none

/-- `useHint()`. -/
def useHint (rand : Nat → Nat) (now : Int) (s : GameState) : GameState :=
  if s.hintsLeft ≤ 0 ∨ s.status = GameStatus.Lost ∨ s.status = GameStatus.Won
  then s
  else match findHintTile s with
  | none => s
  | some c =>
    let s' := reveal rand now s (c.1 : Int) (c.2 : Int)
    { s' with hintsLeft := max 0 (s'.hintsLeft - 1) }

/-! ## Board lemmas -/

theorem length_setTile (b : Board) (y x : Nat) (t : Tile) :
    (setTile b y x t).length = b.length := by
  simp [setTile]

theorem getD_set_self (l : List α) (y : Nat) (r d : α) (hy : y < l.length) :
    (l.set y r).getD y d = r := by
  simp [List.getD_eq_getElem?_getD, List.getElem?_set_self', List.getElem?_eq_getElem hy]

theorem getD_set_ne (l : List α) (y y' : Nat) (r d : α) (h : y' ≠ y) :
    (l.set y r).getD y' d = l.getD y' d := by
  simp [List.getD_eq_getElem?_getD, List.getElem?_set_ne (Ne.symm h)]

theorem rowLen_setTile (b : Board) (y x : Nat) (t : Tile) (y' : Nat) :
    ((setTile b y x t).getD y' []).length = (b.getD y' []).length := by
  unfold setTile
  by_cases hy : y' = y
  · subst hy
    by_cases hlt : y' < b.length
    · rw [getD_set_self _ _ _ _ hlt]; simp
    · rw [List.set_eq_of_length_le (Nat.le_of_not_lt hlt)]
  · rw [getD_set_ne _ _ _ _ _ hy]

theorem getTile_setTile_self (b : Board) (y x : Nat) (t : Tile)
    (hy : y < b.length) (hx : x < (b.getD y []).length) :
    getTile (setTile b y x t) y x = t := by
  unfold getTile setTile
  rw [getD_set_self _ _ _ _ hy, getD_set_self _ _ _ _ hx]

theorem getTile_setTile_ne (b : Board) (y x : Nat) (t : Tile) (y' x' : Nat)
    (h : y' ≠ y ∨ x' ≠ x) :
    getTile (setTile b y x t) y' x' = getTile b y' x' := by
  unfold getTile setTile
  by_cases hy : y' = y
  · subst hy
    have hx : x' ≠ x := h.resolve_left (by simp)
    by_cases hlt : y' < b.length
    · rw [getD_set_self _ _ _ _ hlt, getD_set_ne _ _ _ _ _ hx]
    · rw [List.set_eq_of_length_le (Nat.le_of_not_lt hlt)]
  · rw [getD_set_ne _ _ _ _ _ hy]

/-- Dimension predicate: the board is `rows` rows of `cols` tiles each. -/
def dims (b : Board) (rows cols : Nat) : Prop :=
  b.length = rows ∧ ∀ row ∈ b, row.length = cols

theorem dims_row_getD (b : Board) (rows cols : Nat) (h : dims b rows cols)
    (y : Nat) (hy : y < rows) : ((b.getD y []).length) = cols := by
  have hylen : y < b.length := by rw [h.1]; exact hy
  have : b.getD y [] = b[y] := by
    simp [List.getD_eq_getElem?_getD, List.getElem?_eq_getElem hylen]
  rw [this]
  exact h.2 _ (b.getElem_mem hylen)

theorem dims_setTile (b : Board) (rows cols : Nat) (h : dims b rows cols)
    (y x : Nat) (t : Tile) : dims (setTile b y x t) rows cols := by
  by_cases hy : y < b.length
  · constructor
    · rw [length_setTile, h.1]
    · intro row hrow
      unfold setTile at hrow
      rcases List.mem_or_eq_of_mem_set hrow with hmem | heq
      · exact h.2 _ hmem
      · subst heq
        rw [List.length_set]
        have hbd : b.getD y [] = b[y] := by
          simp [List.getD_eq_getElem?_getD, List.getElem?_eq_getElem hy]
        rw [hbd]
        exact h.2 _ (b.getElem_mem hy)
  · unfold setTile
    rw [List.set_eq_of_length_le (Nat.le_of_not_lt hy)]
    exact h

/-! ## Counting lemmas -/

theorem countHiddenNonMines_eq_sum (b : Board) :
    countHiddenNonMines b =
      (b.map fun row => row.countP fun t => !t.isMine && !t.isRevealed).sum := by
  unfold countHiddenNonMines
  generalize (fun (t : Tile) => !t.isMine && !t.isRevealed) = p
  suffices h : ∀ (l : Board) (a : Nat),
      l.foldl (fun acc row => acc + row.countP p) a = a + (l.map fun row => row.countP p).sum by
    simpa using h b 0
  intro l
  induction l with
  | nil => simp
  | cons r tl ih => intro a; simp [ih, Nat.add_assoc]

/-- The hidden-non-mine predicate counted by `countHiddenNonMines`. -/
def hiddenNonMine (t : Tile) : Bool := !t.isMine && !t.isRevealed

theorem countHiddenNonMines_eq (b : Board) :
    countHiddenNonMines b = (b.map fun row => row.countP hiddenNonMine).sum := by
  rw [countHiddenNonMines_eq_sum]; rfl

theorem countP_set_eq (p : Tile → Bool) (l : List Tile) (x : Nat) (t : Tile)
    (hx : x < l.length) (hp : p t = p (l.getD x dTile)) :
    (l.set x t).countP p = l.countP p := by
  induction l generalizing x with
  | nil => simp at hx
  | cons a tl ih =>
    cases x with
    | zero =>
      simp only [List.set_cons_zero, List.countP_cons, List.getD_cons_zero] at hp ⊢
      rw [hp]
    | succ n =>
      simp only [List.set_cons_succ, List.countP_cons, List.getD_cons_succ] at hp ⊢
      rw [ih n (by simpa using hx) hp]

theorem map_sum_set (f : List Tile → Nat) (b : Board) (y : Nat) (r : List Tile)
    (hf : f r = f (b.getD y [])) :
    ((b.set y r).map f).sum = (b.map f).sum := by
  induction b generalizing y with
  | nil => simp
  | cons a tl ih =>
    cases y with
    | zero => simp only [List.set_cons_zero, List.map_cons, List.sum_cons,
        List.getD_cons_zero] at hf ⊢; rw [hf]
    | succ n =>
      simp only [List.set_cons_succ, List.map_cons, List.sum_cons,
        List.getD_cons_succ] at hf ⊢
      rw [ih n hf]

theorem getD_eq_getElem' (l : List α) (d : α) {n : Nat} (h : n < l.length) :
    l.getD n d = l[n] := by
  simp [List.getD_eq_getElem?_getD, List.getElem?_eq_getElem h]

theorem countHiddenNonMines_setTile (b : Board) (y x : Nat) (t : Tile)
    (hy : y < b.length) (hx : x < (b.getD y []).length)
    (hp : hiddenNonMine t = hiddenNonMine (getTile b y x)) :
    countHiddenNonMines (setTile b y x t) = countHiddenNonMines b := by
  rw [countHiddenNonMines_eq, countHiddenNonMines_eq]
  unfold setTile
  exact map_sum_set _ b y _ (countP_set_eq _ _ x t hx hp)

theorem sum_pos_of_mem {l : List Nat} {a : Nat} (ha : a ∈ l) (hpos : 0 < a) :
    0 < l.sum := by
  induction l with
  | nil => simp at ha
  | cons x tl ih =>
    rcases List.mem_cons.mp ha with h | h
    · subst h; simp [Nat.lt_of_lt_of_le hpos (Nat.le_add_right _ _)]
    · simp [Nat.lt_of_lt_of_le (ih h) (Nat.le_add_left _ _)]

theorem countHiddenNonMines_pos (b : Board) (y x : Nat)
    (hy : y < b.length) (hx : x < (b.getD y []).length)
    (hp : hiddenNonMine (getTile b y x) = true) :
    0 < countHiddenNonMines b := by
  rw [countHiddenNonMines_eq]
  have hrow : b.getD y [] = b[y] := by
    simp [List.getD_eq_getElem?_getD, List.getElem?_eq_getElem hy]
  have hmemrow : (b.getD y []).countP hiddenNonMine ∈
      b.map fun row => row.countP hiddenNonMine := by
    rw [hrow]; exact List.mem_map_of_mem _ (b.getElem_mem hy)
  refine sum_pos_of_mem hmemrow ?_
  refine List.countP_pos_iff.mpr ⟨getTile b y x, ?_, hp⟩
  unfold getTile
  rw [getD_eq_getElem' _ _ hx]
  exact (b.getD y []).getElem_mem hx

/-! ## `revealAllMines` lemmas -/

theorem length_revealAllMines (b : Board) : (revealAllMines b).length = b.length := by
  simp [revealAllMines]

theorem rowD_map (g : List Tile → List Tile) (b : Board) (y : Nat)
    (hy : y < b.length) : (b.map g).getD y [] = g (b.getD y []) := by
  rw [getD_eq_getElem' _ _ (by simpa using hy), getD_eq_getElem' _ _ hy]
  simp

theorem rowLen_revealAllMines (b : Board) (y : Nat) :
    ((revealAllMines b).getD y []).length = (b.getD y []).length := by
  unfold revealAllMines
  by_cases hy : y < b.length
  · rw [rowD_map _ _ _ hy, List.length_map]
  · have hle : b.length ≤ y := Nat.le_of_not_lt hy
    rw [List.getD_eq_default _ _ (by simpa using hle), List.getD_eq_default _ _ hle]

theorem getTile_revealAllMines (b : Board) (y x : Nat)
    (hy : y < b.length) (hx : x < (b.getD y []).length) :
    getTile (revealAllMines b) y x =
      (if (getTile b y x).isMine then { getTile b y x with isRevealed := true }
       else getTile b y x) := by
  unfold revealAllMines getTile
  rw [rowD_map _ _ _ hy, getD_eq_getElem' _ _ (by simpa using hx),
    getD_eq_getElem' _ _ hx]
  simp

theorem countHiddenNonMines_revealAllMines (b : Board) :
    countHiddenNonMines (revealAllMines b) = countHiddenNonMines b := by
  rw [countHiddenNonMines_eq, countHiddenNonMines_eq]
  unfold revealAllMines
  rw [List.map_map]
  congr 1
  refine List.map_congr_left fun row _ => ?_
  rw [Function.comp_apply, List.countP_map]
  refine List.countP_congr fun t _ => ?_
  unfold hiddenNonMine
  by_cases hm : t.isMine <;> simp [hm]

/-! ## `tileAt` inversion -/

theorem tileAt_some {s : GameState} {y x : Int} {t : Tile}
    (h : tileAt s y x = some t) :
    0 ≤ y ∧ y < s.rows ∧ 0 ≤ x ∧ x < s.cols ∧
    y.toNat < s.board.length ∧ x.toNat < (s.board.getD y.toNat []).length ∧
    t = getTile s.board y.toNat x.toNat := by
  unfold tileAt at h
  split at h
  · exact absurd h (by simp)
  · rename_i hguard
    push_neg at hguard
    obtain ⟨h1, h2, h3, h4⟩ := hguard
    rcases hrow : s.board[y.toNat]? with _ | row
    · rw [hrow] at h; simp at h
    · rw [hrow] at h
      simp only [Option.some_bind] at h
      have hylen : y.toNat < s.board.length := by
        exact (List.getElem?_eq_some.mp hrow).1
      have hrowD : s.board.getD y.toNat [] = row := by
        simp [List.getD_eq_getElem?_getD, hrow]
      have hxlen : x.toNat < row.length := (List.getElem?_eq_some.mp h).1
      refine ⟨h1, h2, h3, h4, hylen, by rw [hrowD]; exact hxlen, ?_⟩
      unfold getTile
      rw [hrowD]
      simp [List.getD_eq_getElem?_getD, h]

/-! ## Pointwise-change relations -/

/-- `b'` differs from `b` only by revealing some hidden, unflagged tiles. -/
def RevOnly (b b' : Board) : Prop :=
  ∀ y x : Nat, getTile b' y x = getTile b y x ∨
    (getTile b' y x = { getTile b y x with isRevealed := true } ∧
     (getTile b y x).isRevealed = false ∧ (getTile b y x).isFlagged = false)

theorem RevOnly_refl (b : Board) : RevOnly b b := fun _ _ => Or.inl rfl

theorem RevOnly_trans {a b c : Board} (h1 : RevOnly a b) (h2 : RevOnly b c) :
    RevOnly a c := by
  intro y x
  rcases h2 y x with h | ⟨heq, hrev, hfl⟩
  · rw [h]; exact h1 y x
  · rcases h1 y x with h' | ⟨heq', hrev', hfl'⟩
    · rw [h'] at heq hrev hfl
      exact Or.inr ⟨heq, hrev, hfl⟩
    · rw [heq'] at hrev
      simp at hrev

theorem RevOnly.isMine_eq {b b' : Board} (h : RevOnly b b') (y x : Nat) :
    (getTile b' y x).isMine = (getTile b y x).isMine := by
  rcases h y x with h' | ⟨heq, _, _⟩
  · rw [h']
  · rw [heq]

theorem RevOnly.isFlagged_eq {b b' : Board} (h : RevOnly b b') (y x : Nat) :
    (getTile b' y x).isFlagged = (getTile b y x).isFlagged := by
  rcases h y x with h' | ⟨heq, _, _⟩
  · rw [h']
  · rw [heq]

theorem RevOnly.adj_eq {b b' : Board} (h : RevOnly b b') (y x : Nat) :
    (getTile b' y x).adjacentMines = (getTile b y x).adjacentMines := by
  rcases h y x with h' | ⟨heq, _, _⟩
  · rw [h']
  · rw [heq]

theorem RevOnly.coords_eq {b b' : Board} (h : RevOnly b b') (y x : Nat) :
    (getTile b' y x).x = (getTile b y x).x ∧
    (getTile b' y x).y = (getTile b y x).y := by
  rcases h y x with h' | ⟨heq, _, _⟩
  · rw [h']; exact ⟨rfl, rfl⟩
  · rw [heq]; exact ⟨rfl, rfl⟩

theorem RevOnly.flagged_unchanged {b b' : Board} (h : RevOnly b b') (y x : Nat)
    (hf : (getTile b y x).isFlagged = true) :
    getTile b' y x = getTile b y x := by
  rcases h y x with h' | ⟨_, _, hfl⟩
  · exact h'
  · rw [hf] at hfl; cases hfl

theorem RevOnly.revealed_mono {b b' : Board} (h : RevOnly b b') (y x : Nat)
    (hr : (getTile b y x).isRevealed = true) :
    getTile b' y x = getTile b y x := by
  rcases h y x with h' | ⟨_, hrev, _⟩
  · exact h'
  · rw [hr] at hrev; cases hrev

/-- `b'` differs from `b` only in `adjacentMines` values. -/
def AdjOnly (b b' : Board) : Prop :=
  ∀ y x : Nat, ∃ a, getTile b' y x = { getTile b y x with adjacentMines := a }

theorem AdjOnly_refl (b : Board) : AdjOnly b b :=
  fun y x => ⟨(getTile b y x).adjacentMines, rfl⟩

theorem AdjOnly_trans {a b c : Board} (h1 : AdjOnly a b) (h2 : AdjOnly b c) :
    AdjOnly a c := by
  intro y x
  obtain ⟨v2, hv2⟩ := h2 y x
  obtain ⟨v1, hv1⟩ := h1 y x
  exact ⟨v2, by rw [hv2, hv1]⟩

/-- `b'` differs from `b` only by turning `isMine` on at some tiles. -/
def MineOnly (b b' : Board) : Prop :=
  ∀ y x : Nat, getTile b' y x = getTile b y x ∨
    getTile b' y x = { getTile b y x with isMine := true }

theorem MineOnly_refl (b : Board) : MineOnly b b := fun _ _ => Or.inl rfl

theorem MineOnly_trans {a b c : Board} (h1 : MineOnly a b) (h2 : MineOnly b c) :
    MineOnly a c := by
  intro y x
  rcases h2 y x with h | h <;> rcases h1 y x with h' | h' <;>
    rw [h, h'] <;> simp [Or.inl, Or.inr]

/-! ## Field-preservation (frame) lemmas -/

theorem placeMines_fields (rand : Nat → Nat) (s : GameState) (sx sy : Nat) :
    (placeMinesAfterFirstClick rand s sx sy).rows = s.rows ∧
    (placeMinesAfterFirstClick rand s sx sy).cols = s.cols ∧
    (placeMinesAfterFirstClick rand s sx sy).mines = s.mines ∧
    (placeMinesAfterFirstClick rand s sx sy).difficulty = s.difficulty ∧
    (placeMinesAfterFirstClick rand s sx sy).flagsPlaced = s.flagsPlaced ∧
    (placeMinesAfterFirstClick rand s sx sy).minesLeft = s.minesLeft ∧
    (placeMinesAfterFirstClick rand s sx sy).hintsLeft = s.hintsLeft ∧
    (placeMinesAfterFirstClick rand s sx sy).status = s.status ∧
    (placeMinesAfterFirstClick rand s sx sy).firstClick = s.firstClick := by
  unfold placeMinesAfterFirstClick
  exact ⟨rfl, rfl, rfl, rfl, rfl, rfl, rfl, rfl, rfl⟩

theorem toggleFlag_fields (s : GameState) (x y : Int) :
    (toggleFlag s x y).rows = s.rows ∧ (toggleFlag s x y).cols = s.cols ∧
    (toggleFlag s x y).mines = s.mines ∧
    (toggleFlag s x y).difficulty = s.difficulty ∧
    (toggleFlag s x y).status = s.status ∧
    (toggleFlag s x y).firstClick = s.firstClick ∧
    (toggleFlag s x y).hintsLeft = s.hintsLeft := by
  unfold toggleFlag
  split
  · exact ⟨rfl, rfl, rfl, rfl, rfl, rfl, rfl⟩
  · split
    · exact ⟨rfl, rfl, rfl, rfl, rfl, rfl, rfl⟩
    · split
      · exact ⟨rfl, rfl, rfl, rfl, rfl, rfl, rfl⟩
      · exact ⟨rfl, rfl, rfl, rfl, rfl, rfl, rfl⟩

theorem reveal_fields (rand : Nat → Nat) (now : Int) (s : GameState) (x y : Int) :
    (reveal rand now s x y).rows = s.rows ∧
    (reveal rand now s x y).cols = s.cols ∧
    (reveal rand now s x y).mines = s.mines ∧
    (reveal rand now s x y).difficulty = s.difficulty ∧
    (reveal rand now s x y).flagsPlaced = s.flagsPlaced ∧
    (reveal rand now s x y).minesLeft = s.minesLeft ∧
    (reveal rand now s x y).hintsLeft = s.hintsLeft := by
  unfold reveal
  split
  · exact ⟨rfl, rfl, rfl, rfl, rfl, rfl, rfl⟩
  split
  · exact ⟨rfl, rfl, rfl, rfl, rfl, rfl, rfl⟩
  rename_i t _
  split
  · exact ⟨rfl, rfl, rfl, rfl, rfl, rfl, rfl⟩
  have hp := placeMines_fields rand s t.x t.y
  obtain ⟨p1, p2, p3, p4, p5, p6, p7, -, -⟩ := hp
  by_cases hfc : s.firstClick
  · simp only [hfc, if_true]
    split
    · exact ⟨p1, p2, p3, p4, p5, p6, p7⟩
    · split
      · exact ⟨p1, p2, p3, p4, p5, p6, p7⟩
      · exact ⟨p1, p2, p3, p4, p5, p6, p7⟩
  · simp only [Bool.not_eq_true] at hfc
    simp only [hfc, Bool.false_eq_true, if_false]
    split
    · exact ⟨rfl, rfl, rfl, rfl, rfl, rfl, rfl⟩
    · split
      · exact ⟨rfl, rfl, rfl, rfl, rfl, rfl, rfl⟩
      · exact ⟨rfl, rfl, rfl, rfl, rfl, rfl, rfl⟩

theorem chord_fields (s : GameState) (x y : Int) :
    (chord s x y).rows = s.rows ∧ (chord s x y).cols = s.cols ∧
    (chord s x y).mines = s.mines ∧ (chord s x y).difficulty = s.difficulty ∧
    (chord s x y).flagsPlaced = s.flagsPlaced ∧
    (chord s x y).minesLeft = s.minesLeft ∧
    (chord s x y).firstClick = s.firstClick ∧
    (chord s x y).hintsLeft = s.hintsLeft := by
  unfold chord
  split
  · exact ⟨rfl, rfl, rfl, rfl, rfl, rfl, rfl, rfl⟩
  split
  · exact ⟨rfl, rfl, rfl, rfl, rfl, rfl, rfl, rfl⟩
  split
  · exact ⟨rfl, rfl, rfl, rfl, rfl, rfl, rfl, rfl⟩
  dsimp only
  split
  · exact ⟨rfl, rfl, rfl, rfl, rfl, rfl, rfl, rfl⟩
  split
  · exact ⟨rfl, rfl, rfl, rfl, rfl, rfl, rfl, rfl⟩
  split
  · exact ⟨rfl, rfl, rfl, rfl, rfl, rfl, rfl, rfl⟩
  · exact ⟨rfl, rfl, rfl, rfl, rfl, rfl, rfl, rfl⟩

theorem useHint_fields (rand : Nat → Nat) (now : Int) (s : GameState) :
    (useHint rand now s).rows = s.rows ∧ (useHint rand now s).cols = s.cols ∧
    (useHint rand now s).mines = s.mines ∧
    (useHint rand now s).difficulty = s.difficulty := by
  unfold useHint
  split
  · exact ⟨rfl, rfl, rfl, rfl⟩
  · split
    · exact ⟨rfl, rfl, rfl, rfl⟩
    · rename_i c _
      have hr := reveal_fields rand now s (c.1 : Int) (c.2 : Int)
      exact ⟨hr.1, hr.2.1, hr.2.2.1, hr.2.2.2.1⟩

/-- C9: every player command other than `newGame`/`restart` leaves `rows`,
`cols`, `mines` and `difficulty` of the snapshot unchanged, from every
starting state. -/
theorem player_commands_preserve_config (rand : Nat → Nat) (now : Int)
    (s : GameState) (x y : Int) :
    ((reveal rand now s x y).rows = s.rows ∧
     (reveal rand now s x y).cols = s.cols ∧
     (reveal rand now s x y).mines = s.mines ∧
     (reveal rand now s x y).difficulty = s.difficulty) ∧
    ((toggleFlag s x y).rows = s.rows ∧ (toggleFlag s x y).cols = s.cols ∧
     (toggleFlag s x y).mines = s.mines ∧
     (toggleFlag s x y).difficulty = s.difficulty) ∧
    ((chord s x y).rows = s.rows ∧ (chord s x y).cols = s.cols ∧
     (chord s x y).mines = s.mines ∧ (chord s x y).difficulty = s.difficulty) ∧
    ((useHint rand now s).rows = s.rows ∧ (useHint rand now s).cols = s.cols ∧
     (useHint rand now s).mines = s.mines ∧
     (useHint rand now s).difficulty = s.difficulty) := by
  have h1 := reveal_fields rand now s x y
  have h2 := toggleFlag_fields s x y
  have h3 := chord_fields s x y
  have h4 := useHint_fields rand now s
  exact ⟨⟨h1.1, h1.2.1, h1.2.2.1, h1.2.2.2.1⟩,
    ⟨h2.1, h2.2.1, h2.2.2.1, h2.2.2.2.1⟩,
    ⟨h3.1, h3.2.1, h3.2.2.1, h3.2.2.2.1⟩, h4⟩

/-! ## Status transition structure -/

/-- The edges of the status diagram `Ready → Playing → {Won, Lost}`. -/
inductive StatusEdge : GameStatus → GameStatus → Prop
  | ready_playing : StatusEdge GameStatus.Ready GameStatus.Playing
  | playing_won : StatusEdge GameStatus.Playing GameStatus.Won
  | playing_lost : StatusEdge GameStatus.Playing GameStatus.Lost

/-- "Along the diagram": the reflexive-transitive closure of its edges. -/
def StatusPath : GameStatus → GameStatus → Prop :=
  Relation.ReflTransGen StatusEdge

theorem statusPath_of_cases {a b : GameStatus}
    (h : b = a ∨ ((a = GameStatus.Ready ∨ a = GameStatus.Playing) ∧
      (b = GameStatus.Playing ∨ b = GameStatus.Won ∨ b = GameStatus.Lost))) :
    StatusPath a b := by
  rcases h with rfl | ⟨ha, hb⟩
  · exact Relation.ReflTransGen.refl
  · have hpw : StatusPath GameStatus.Playing GameStatus.Won :=
      Relation.ReflTransGen.single StatusEdge.playing_won
    have hpl : StatusPath GameStatus.Playing GameStatus.Lost :=
      Relation.ReflTransGen.single StatusEdge.playing_lost
    have hrp : StatusPath GameStatus.Ready GameStatus.Playing :=
      Relation.ReflTransGen.single StatusEdge.ready_playing
    rcases ha with rfl | rfl <;> rcases hb with rfl | rfl | rfl
    · exact hrp
    · exact Relation.ReflTransGen.head StatusEdge.ready_playing hpw
    · exact Relation.ReflTransGen.head StatusEdge.ready_playing hpl
    · exact Relation.ReflTransGen.refl
    · exact hpw
    · exact hpl

theorem status_not_over {s : GameState}
    (h : ¬(s.status = GameStatus.Lost ∨ s.status = GameStatus.Won)) :
    s.status = GameStatus.Ready ∨ s.status = GameStatus.Playing := by
  cases hs : s.status <;> simp [hs] at h ⊢

theorem reveal_status_cases (rand : Nat → Nat) (now : Int) (s : GameState)
    (x y : Int) :
    (reveal rand now s x y).status = s.status ∨
    ((s.status = GameStatus.Ready ∨ s.status = GameStatus.Playing) ∧
     ((reveal rand now s x y).status = GameStatus.Playing ∨
      (reveal rand now s x y).status = GameStatus.Won ∨
      (reveal rand now s x y).status = GameStatus.Lost)) := by
  unfold reveal
  split
  · exact Or.inl rfl
  rename_i hguard
  have hro := status_not_over hguard
  split
  · exact Or.inl rfl
  split
  · exact Or.inl rfl
  by_cases hfc : s.firstClick
  · simp only [hfc, if_true]
    split
    · exact Or.inr ⟨hro, Or.inr (Or.inr rfl)⟩
    · split
      · exact Or.inr ⟨hro, Or.inr (Or.inl rfl)⟩
      · exact Or.inr ⟨hro, Or.inl rfl⟩
  · simp only [Bool.not_eq_true] at hfc
    simp only [hfc, Bool.false_eq_true, if_false]
    split
    · exact Or.inr ⟨hro, Or.inr (Or.inr rfl)⟩
    · split
      · exact Or.inr ⟨hro, Or.inr (Or.inl rfl)⟩
      · exact Or.inl rfl

theorem chord_status_cases (s : GameState) (x y : Int) :
    (chord s x y).status = s.status ∨
    (s.status = GameStatus.Playing ∧
     ((chord s x y).status = GameStatus.Won ∨
      (chord s x y).status = GameStatus.Lost)) := by
  unfold chord
  split
  · exact Or.inl rfl
  rename_i hpl
  rw [not_not] at hpl
  split
  · exact Or.inl rfl
  split
  · exact Or.inl rfl
  dsimp only
  split
  · exact Or.inl rfl
  split
  · exact Or.inr ⟨hpl, Or.inr rfl⟩
  split
  · exact Or.inr ⟨hpl, Or.inl rfl⟩
  · exact Or.inl rfl

theorem useHint_status_cases (rand : Nat → Nat) (now : Int) (s : GameState) :
    (useHint rand now s).status = s.status ∨
    ((s.status = GameStatus.Ready ∨ s.status = GameStatus.Playing) ∧
     ((useHint rand now s).status = GameStatus.Playing ∨
      (useHint rand now s).status = GameStatus.Won ∨
      (useHint rand now s).status = GameStatus.Lost)) := by
  unfold useHint
  split
  · exact Or.inl rfl
  rename_i hguard
  split
  · exact Or.inl rfl
  rename_i c _
  have hro : s.status = GameStatus.Ready ∨ s.status = GameStatus.Playing := by
    cases hs : s.status <;> simp [hs] at hguard ⊢
  have h := reveal_status_cases rand now s (c.1 : Int) (c.2 : Int)
  rcases h with h | ⟨_, h⟩
  · exact Or.inl h
  · exact Or.inr ⟨hro, h⟩

/-- `reveal` is the identity on finished games. -/
theorem reveal_terminal (rand : Nat → Nat) (now : Int) (s : GameState)
    (x y : Int)
    (h : s.status = GameStatus.Won ∨ s.status = GameStatus.Lost) :
    reveal rand now s x y = s := by
  unfold reveal
  rcases h with h | h <;> simp [h]

theorem toggleFlag_terminal (s : GameState) (x y : Int)
    (h : s.status = GameStatus.Won ∨ s.status = GameStatus.Lost) :
    toggleFlag s x y = s := by
  unfold toggleFlag
  rcases h with h | h <;> simp [h]

theorem chord_terminal (s : GameState) (x y : Int)
    (h : s.status = GameStatus.Won ∨ s.status = GameStatus.Lost) :
    chord s x y = s := by
  unfold chord
  rcases h with h | h <;> simp [h]

theorem useHint_terminal (rand : Nat → Nat) (now : Int) (s : GameState)
    (h : s.status = GameStatus.Won ∨ s.status = GameStatus.Lost) :
    useHint rand now s = s := by
  unfold useHint
  rcases h with h | h <;> simp [h]

/-- C4: along every command, `status` moves only along
`Ready → Playing → {Won, Lost}`; and once `Won` or `Lost`, every command
other than `newGame`/`restart` leaves `board` and `status` unchanged. -/
theorem status_transitions_and_terminality (rand : Nat → Nat) (now : Int)
    (s : GameState) (x y : Int) :
    (StatusPath s.status (reveal rand now s x y).status ∧
     StatusPath s.status (toggleFlag s x y).status ∧
     StatusPath s.status (chord s x y).status ∧
     StatusPath s.status (useHint rand now s).status) ∧
    ((s.status = GameStatus.Won ∨ s.status = GameStatus.Lost) →
      ((reveal rand now s x y).board = s.board ∧
       (reveal rand now s x y).status = s.status) ∧
      ((toggleFlag s x y).board = s.board ∧
       (toggleFlag s x y).status = s.status) ∧
      ((chord s x y).board = s.board ∧ (chord s x y).status = s.status) ∧
      ((useHint rand now s).board = s.board ∧
       (useHint rand now s).status = s.status)) := by
  constructor
  · refine ⟨?_, ?_, ?_, ?_⟩
    · refine statusPath_of_cases ?_
      rcases reveal_status_cases rand now s x y with h | ⟨h1, h2⟩
      · exact Or.inl h
      · exact Or.inr ⟨h1, h2⟩
    · exact statusPath_of_cases (Or.inl (toggleFlag_fields s x y).2.2.2.2.1)
    · refine statusPath_of_cases ?_
      rcases chord_status_cases s x y with h | ⟨h1, h2⟩
      · exact Or.inl h
      · refine Or.inr ⟨Or.inr h1, ?_⟩
        rcases h2 with h2 | h2
        · exact Or.inr (Or.inl h2)
        · exact Or.inr (Or.inr h2)
    · refine statusPath_of_cases ?_
      rcases useHint_status_cases rand now s with h | ⟨h1, h2⟩
      · exact Or.inl h
      · exact Or.inr ⟨h1, h2⟩
  · intro hterm
    rw [reveal_terminal rand now s x y hterm, toggleFlag_terminal s x y hterm,
      chord_terminal s x y hterm, useHint_terminal rand now s hterm]
    exact ⟨⟨rfl, rfl⟩, ⟨rfl, rfl⟩, ⟨rfl, rfl⟩, ⟨rfl, rfl⟩⟩

/-! ## Chord eligibility (C7) -/

/-- The conditions under which `chord` acts: playing status, an in-bounds
revealed non-mine numbered tile whose flagged-neighbor count equals its
number. -/
def chordEligible (s : GameState) (x y : Int) : Prop :=
  s.status = GameStatus.Playing ∧
  ∃ t, tileAt s y x = some t ∧ t.isRevealed = true ∧ t.isMine = false ∧
    t.adjacentMines ≠ 0 ∧
    (neighbors s.board t.x t.y).countP (·.isFlagged) = t.adjacentMines

/-- C7: `chord` leaves the snapshot unchanged unless all eligibility
conditions hold; in particular under- or over-flagged neighborhoods abort
silently. -/
theorem chord_noop_unless_eligible (s : GameState) (x y : Int)
    (h : ¬chordEligible s x y) : chord s x y = s := by
  unfold chord
  split
  · rfl
  rename_i hpl
  rw [not_not] at hpl
  split
  · rfl
  rename_i t htile
  split
  · rfl
  rename_i hcond
  push_neg at hcond
  obtain ⟨hrev, hmine, hadj⟩ := hcond
  dsimp only
  split
  · rfl
  rename_i hflags
  rw [not_not] at hflags
  exact absurd ⟨hpl, t, htile, by simpa using hrev, by simpa using hmine,
    hadj, hflags⟩ h

/-! ## Flag toggling specification (C8) -/

/-- C8: `toggleFlag` is a no-op on finished games, out-of-bounds coordinates
and revealed tiles; otherwise it flips the flag, moves `flagsPlaced` by ±1,
and clamps `minesLeft = max 0 (mines - flagsPlaced)`, which is never
negative. -/
theorem toggleFlag_spec (s : GameState) (x y : Int) :
    ((s.status = GameStatus.Lost ∨ s.status = GameStatus.Won ∨
      tileAt s y x = none) → toggleFlag s x y = s) ∧
    (∀ t, tileAt s y x = some t →
      ¬(s.status = GameStatus.Lost ∨ s.status = GameStatus.Won) →
      (t.isRevealed = true → toggleFlag s x y = s) ∧
      (t.isRevealed = false →
        (toggleFlag s x y).board =
          setTile s.board t.y t.x { t with isFlagged := !t.isFlagged } ∧
        (toggleFlag s x y).flagsPlaced =
          s.flagsPlaced + (if t.isFlagged then -1 else 1) ∧
        (toggleFlag s x y).minesLeft =
          max 0 (s.mines - (toggleFlag s x y).flagsPlaced) ∧
        0 ≤ (toggleFlag s x y).minesLeft)) := by
  constructor
  · intro h
    unfold toggleFlag
    rcases h with h | h | h
    · simp [h]
    · simp [h]
    · split
      · rfl
      · rw [h]
  · intro t htile hstat
    constructor
    · intro hrev
      unfold toggleFlag
      split
      · rfl
      · rw [htile]
        simp [hrev]
    · intro hrev
      have hgoal : toggleFlag s x y =
          { s with
            board := setTile s.board t.y t.x { t with isFlagged := !t.isFlagged },
            flagsPlaced := s.flagsPlaced + (if !t.isFlagged then 1 else -1),
            minesLeft := max 0 (s.mines -
              (s.flagsPlaced + (if !t.isFlagged then 1 else -1))) } := by
        unfold toggleFlag
        split
        · exact absurd (by assumption) hstat
        · rw [htile]
          simp [hrev]
      rw [hgoal]
      refine ⟨rfl, ?_, rfl, ?_⟩
      · cases hf : t.isFlagged <;> simp [hf]
      · exact le_max_left 0 _

/-! ## `newGame` performs no validation (C2) -/

theorem dims_createMatrix (rows cols : Int) (f : Nat → Nat → Tile) :
    dims (createMatrix rows cols f) rows.toNat cols.toNat := by
  constructor
  · simp [createMatrix]
  · intro row hrow
    unfold createMatrix at hrow
    obtain ⟨yy, hyy, rfl⟩ := List.mem_map.mp hrow
    simp

theorem getTile_createMatrix (rows cols : Int) (f : Nat → Nat → Tile)
    (y x : Nat) (hy : y < rows.toNat) (hx : x < cols.toNat) :
    getTile (createMatrix rows cols f) y x = f y x := by
  have hrow : (createMatrix rows cols f).getD y [] =
      (List.range cols.toNat).map (f y) := by
    unfold createMatrix
    rw [getD_eq_getElem' _ _ (by simpa using hy)]
    simp
  unfold getTile
  rw [hrow, getD_eq_getElem' _ _ (by simpa using hx)]
  simp

/-- C2 counterexample: an invalid configuration (`rows = 0`, `cols = 0`,
`mines = -5`) does not fail: `newGame` creates and commits a fresh `Ready`
game state with an empty board, rather than raising a configuration
error. -/
theorem newGame_accepts_invalid_config :
    newGame 0 0 (-5) Difficulty.Custom =
      initialState 0 0 (-5) Difficulty.Custom ∧
    (newGame 0 0 (-5) Difficulty.Custom).status = GameStatus.Ready ∧
    (newGame 0 0 (-5) Difficulty.Custom).firstClick = true ∧
    (newGame 0 0 (-5) Difficulty.Custom).board = [] ∧
    (newGame 0 0 (-5) Difficulty.Custom).mines = -5 ∧
    (newGame 0 0 (-5) Difficulty.Custom).minesLeft = -5 := by
  refine ⟨rfl, rfl, rfl, ?_, rfl, rfl⟩
  rfl

/-- C2 (amended): `newGame` performs no validation at all — for every
configuration, valid or not, it creates and commits the fresh all-hidden,
mine-free `Ready` snapshot. -/
theorem newGame_no_validation (rows cols mines : Int) (d : Difficulty) :
    newGame rows cols mines d = initialState rows cols mines d ∧
    (newGame rows cols mines d).status = GameStatus.Ready ∧
    (newGame rows cols mines d).firstClick = true ∧
    (newGame rows cols mines d).flagsPlaced = 0 ∧
    (newGame rows cols mines d).minesLeft = mines ∧
    (newGame rows cols mines d).hintsLeft = 3 ∧
    dims (newGame rows cols mines d).board rows.toNat cols.toNat ∧
    ∀ y x : Nat, y < rows.toNat → x < cols.toNat →
      getTile (newGame rows cols mines d).board y x =
        { x := x, y := y, isMine := false, isRevealed := false,
          isFlagged := false, adjacentMines := 0 } := by
  refine ⟨rfl, rfl, rfl, rfl, rfl, rfl, dims_createMatrix _ _ _, ?_⟩
  intro yy xx hy hx
  exact getTile_createMatrix rows cols _ yy xx hy hx

/-! ## Master set/get lemma and shape preservation -/

theorem getTile_setTile (b : Board) (y x : Nat) (t : Tile) (y' x' : Nat) :
    getTile (setTile b y x t) y' x' =
      if y' = y ∧ x' = x ∧ y < b.length ∧ x < (b.getD y []).length then t
      else getTile b y' x' := by
  by_cases hy : y' = y
  · subst hy
    by_cases hyl : y' < b.length
    · by_cases hx : x' = x
      · subst hx
        by_cases hxl : x' < (b.getD y' []).length
        · rw [getTile_setTile_self b y' x' t hyl hxl,
            if_pos ⟨rfl, rfl, hyl, hxl⟩]
        · rw [if_neg (fun hc => hxl hc.2.2.2)]
          unfold getTile setTile
          rw [getD_set_self _ _ _ _ hyl,
            List.set_eq_of_length_le (Nat.le_of_not_lt hxl)]
      · rw [getTile_setTile_ne b y' x t y' x' (Or.inr hx),
          if_neg (fun hc => hx hc.2.1)]
    · rw [if_neg (fun hc => hyl hc.2.2.1)]
      unfold getTile setTile
      rw [List.set_eq_of_length_le (Nat.le_of_not_lt hyl)]
  · rw [getTile_setTile_ne b y x t y' x' (Or.inl hy),
      if_neg (fun hc => hy hc.1)]

/-- Same outer length and same row lengths. -/
def sameShape (b b' : Board) : Prop :=
  b'.length = b.length ∧ ∀ y, ((b'.getD y []).length) = ((b.getD y []).length)

theorem sameShape_refl (b : Board) : sameShape b b := ⟨rfl, fun _ => rfl⟩

theorem sameShape_trans {a b c : Board} (h1 : sameShape a b)
    (h2 : sameShape b c) : sameShape a c :=
  ⟨h2.1.trans h1.1, fun y => (h2.2 y).trans (h1.2 y)⟩

theorem sameShape_setTile (b : Board) (y x : Nat) (t : Tile) :
    sameShape b (setTile b y x t) :=
  ⟨length_setTile b y x t, rowLen_setTile b y x t⟩

theorem sameShape_dims {b b' : Board} (h : sameShape b b') {rows cols : Nat}
    (hd : dims b rows cols) : dims b' rows cols := by
  refine ⟨h.1.trans hd.1, ?_⟩
  intro row hrow
  obtain ⟨i, hi, rfl⟩ := List.getElem_of_mem hrow
  have hib : i < b.length := by rw [← h.1]; exact hi
  have h1 : b'[i] = b'.getD i [] := (getD_eq_getElem' _ _ hi).symm
  rw [h1]
  rw [h.2 i]
  rw [getD_eq_getElem' _ _ hib]
  exact hd.2 _ (b.getElem_mem hib)

/-! ## Flood-fill pointwise lemmas -/

theorem ffLoop_shape (rows cols : Nat) (gas : Nat) :
    ∀ (q v : List (Nat × Nat)) (out : Board),
      sameShape out (ffLoop rows cols gas q v out) := by
  induction gas with
  | zero => intro q v out; exact sameShape_refl out
  | succ gas ih =>
    intro q v out
    match q with
    | [] => exact sameShape_refl out
    | (x, y) :: rest =>
      simp only [ffLoop]
      split
      · exact ih rest v out
      · split
        · exact sameShape_trans (sameShape_setTile out y x _) (ih _ _ _)
        · exact sameShape_trans (sameShape_setTile out y x _) (ih _ _ _)

theorem ffLoop_revOnly (rows cols : Nat) (gas : Nat) :
    ∀ (q v : List (Nat × Nat)) (out : Board),
      RevOnly out (ffLoop rows cols gas q v out) := by
  induction gas with
  | zero => intro q v out; exact RevOnly_refl out
  | succ gas ih =>
    intro q v out
    match q with
    | [] => exact RevOnly_refl out
    | (x, y) :: rest =>
      simp only [ffLoop]
      split
      · exact ih rest v out
      · rename_i hcond
        push_neg at hcond
        obtain ⟨hrev, hfl⟩ := hcond
        have hstep : RevOnly out
            (setTile out y x { getTile out y x with isRevealed := true }) := by
          intro yy xx
          rw [getTile_setTile]
          split
          · rename_i hc
            obtain ⟨rfl, rfl, -, -⟩ := hc
            exact Or.inr ⟨rfl, by simpa using hrev, by simpa using hfl⟩
          · exact Or.inl rfl
        split
        · exact RevOnly_trans hstep (ih _ _ _)
        · exact RevOnly_trans hstep (ih _ _ _)

theorem revealFloodFill_shape (b : Board) (sx sy : Nat) :
    sameShape b (revealFloodFill b sx sy) := by
  unfold revealFloodFill
  exact ffLoop_shape _ _ _ _ _ _

theorem revealFloodFill_revOnly (b : Board) (sx sy : Nat) :
    RevOnly b (revealFloodFill b sx sy) := by
  unfold revealFloodFill
  exact ffLoop_revOnly _ _ _ _ _ _

/-! ## Shuffle and slice lemmas -/

theorem length_listSwap (l : List Nat) (i j : Nat) :
    (listSwap l i j).length = l.length := by
  simp [listSwap]

theorem mem_listSwap (l : List Nat) (i j : Nat) (hi : i < l.length)
    (hj : j < l.length) (a : Nat) (ha : a ∈ listSwap l i j) : a ∈ l := by
  unfold listSwap at ha
  rcases List.mem_or_eq_of_mem_set ha with ha | rfl
  · rcases List.mem_or_eq_of_mem_set ha with ha | rfl
    · exact ha
    · rw [getD_eq_getElem' _ _ hj]
      exact l.getElem_mem hj
  · rw [getD_eq_getElem' _ _ hi]
    exact l.getElem_mem hi

theorem fyAux_mem (rand : Nat → Nat) :
    ∀ (i : Nat) (l : List Nat), i < l.length →
      ∀ a ∈ fyAux rand l i, a ∈ l := by
  intro i
  induction i with
  | zero => intro l _ a ha; exact ha
  | succ n ih =>
    intro l hlen a ha
    simp only [fyAux] at ha
    have hswaplen : (listSwap l (n+1) (rand (n+1) % (n+2))).length = l.length :=
      length_listSwap l _ _
    have hmem := ih (listSwap l (n+1) (rand (n+1) % (n+2)))
      (by rw [hswaplen]; exact Nat.lt_of_succ_lt hlen) a ha
    refine mem_listSwap l _ _ hlen ?_ a hmem
    calc rand (n+1) % (n+2) < n + 2 := Nat.mod_lt _ (by omega)
      _ ≤ l.length := hlen

theorem fyShuffle_mem (rand : Nat → Nat) (l : List Nat) (a : Nat)
    (ha : a ∈ fyShuffle rand l) : a ∈ l := by
  unfold fyShuffle at ha
  match hl : l, ha with
  | [], ha => simpa [fyAux] using ha
  | x :: xs, ha =>
    exact fyAux_mem rand _ _ (by simp) a ha

theorem jsSlice0_subset (l : List Nat) (n : Int) : jsSlice0 l n ⊆ l := by
  unfold jsSlice0
  split <;> exact List.take_subset _ _

theorem minePositions_subset (rand : Nat → Nat) (s : GameState)
    (sx sy : Nat) : ∀ a ∈ minePositions rand s sx sy, a ∈ candidateIndices s sx sy := by
  intro a ha
  exact fyShuffle_mem rand _ a (jsSlice0_subset _ _ ha)

theorem candidateIndices_not_forbidden (s : GameState) (sx sy : Nat)
    (i : Nat) (hi : i ∈ candidateIndices s sx sy) :
    i ∉ forbiddenIndices s sx sy := by
  unfold candidateIndices at hi
  have h2 := (List.mem_filter.mp hi).2
  intro hmem
  rw [Bool.not_eq_true', ← Bool.not_eq_true] at h2
  exact h2 (by simpa [List.contains] using List.elem_iff.mpr hmem)

/-! ## Adjacency recalculation -/

/-- The tile value `recalculateAdjacency` writes at cell `(y, x)`
(computed from board `b`). -/
def adjTarget (b : Board) (y x : Nat) : Tile :=
  { getTile b y x with
    adjacentMines :=
      if (getTile b y x).isMine then 0
      else (neighbors b x y).countP (·.isMine) }

theorem recalcCell_eq (b : Board) (y x : Nat) :
    recalcCell b y x = setTile b y x (adjTarget b y x) := by
  unfold recalcCell adjTarget
  split
  · rename_i hm
    rw [if_pos hm]
  · rename_i hm
    rw [if_neg hm]

theorem sameShape_recalcCell (b : Board) (y x : Nat) :
    sameShape b (recalcCell b y x) := by
  rw [recalcCell_eq]; exact sameShape_setTile b y x _

theorem adjOnly_recalcCell (b : Board) (y x : Nat) :
    AdjOnly b (recalcCell b y x) := by
  rw [recalcCell_eq]
  intro yy xx
  rw [getTile_setTile]
  split
  · rename_i hc
    obtain ⟨rfl, rfl, -, -⟩ := hc
    exact ⟨_, rfl⟩
  · exact ⟨(getTile b yy xx).adjacentMines, rfl⟩

theorem countP_filterMap_congr {α : Type} (l : List α)
    (f g : α → Option Tile)
    (h : ∀ a ∈ l, (f a = none ∧ g a = none) ∨
      ∃ t t', f a = some t ∧ g a = some t' ∧ t.isMine = t'.isMine) :
    (l.filterMap f).countP (·.isMine) = (l.filterMap g).countP (·.isMine) := by
  induction l with
  | nil => rfl
  | cons a tl ih =>
    have ha := h a (List.mem_cons_self a tl)
    have htl := ih fun b hb => h b (List.mem_cons_of_mem a hb)
    rcases ha with ⟨hf, hg⟩ | ⟨t, t', hf, hg, hm⟩
    · rw [List.filterMap_cons, List.filterMap_cons, hf, hg, htl]
    · rw [List.filterMap_cons, List.filterMap_cons, hf, hg,
        List.countP_cons, List.countP_cons, htl, hm]

theorem neighbors_countP_congr (b b' : Board) (x y : Nat)
    (hshape : sameShape b b')
    (hm : ∀ yy xx, (getTile b' yy xx).isMine = (getTile b yy xx).isMine) :
    (neighbors b' x y).countP (·.isMine) = (neighbors b x y).countP (·.isMine) := by
  unfold neighbors
  refine (countP_filterMap_congr offsets _ _ ?_).symm
  intro p _
  by_cases hc : 0 ≤ (y : Int) + p.1 ∧ (y : Int) + p.1 < (b.length : Int) ∧
      0 ≤ (x : Int) + p.2 ∧ (x : Int) + p.2 < ((b.getD 0 []).length : Int)
  · refine Or.inr ⟨getTile b ((y : Int) + p.1).toNat ((x : Int) + p.2).toNat,
      getTile b' ((y : Int) + p.1).toNat ((x : Int) + p.2).toNat,
      if_pos hc, if_pos (by rw [hshape.1, hshape.2 0]; exact hc), (hm _ _).symm⟩
  · exact Or.inl ⟨if_neg hc, if_neg (by rw [hshape.1, hshape.2 0]; exact hc)⟩

theorem adjTarget_congr (b b' : Board) (y x : Nat) (hshape : sameShape b b')
    (hadj : AdjOnly b b') :
    adjTarget b' y x = adjTarget b y x := by
  have hm : ∀ yy xx, (getTile b' yy xx).isMine = (getTile b yy xx).isMine := by
    intro yy xx
    obtain ⟨a, ha⟩ := hadj yy xx
    rw [ha]
  unfold adjTarget
  obtain ⟨a, ha⟩ := hadj y x
  rw [ha, neighbors_countP_congr b b' x y hshape hm]

/-- The nested `for y / for x` loop as a fold over the cell list. -/
def cellPairs (n m : Nat) : List (Nat × Nat) :=
  (List.range n).flatMap fun yy => (List.range m).map fun xx => (yy, xx)

theorem mem_cellPairs (n m y x : Nat) :
    (y, x) ∈ cellPairs n m ↔ y < n ∧ x < m := by
  unfold cellPairs
  constructor
  · intro h
    obtain ⟨yy, hyy, hmem⟩ := List.mem_flatMap.mp h
    obtain ⟨xx, hxx, hpair⟩ := List.mem_map.mp hmem
    obtain ⟨h1, h2⟩ := Prod.mk.injEq .. |>.mp hpair
    subst h1; subst h2
    exact ⟨List.mem_range.mp hyy, List.mem_range.mp hxx⟩
  · intro ⟨hy, hx⟩
    exact List.mem_flatMap.mpr ⟨y, List.mem_range.mpr hy,
      List.mem_map.mpr ⟨x, List.mem_range.mpr hx, rfl⟩⟩

theorem nestedFold_eq_pairs (g : Board → Nat → Nat → Board) (m : Nat) :
    ∀ (l : List Nat) (b : Board),
      l.foldl (fun bb yy => (List.range m).foldl (fun b2 xx => g b2 yy xx) bb) b =
      (l.flatMap fun yy => (List.range m).map fun xx => (yy, xx)).foldl
        (fun bb c => g bb c.1 c.2) b := by
  intro l
  induction l with
  | nil => intro b; rfl
  | cons a tl ih =>
    intro b
    rw [List.foldl_cons, List.flatMap_cons, List.foldl_append, ih, List.foldl_map]

theorem recalculateAdjacency_eq_pairs (b : Board) :
    recalculateAdjacency b =
      (cellPairs b.length (b.getD 0 []).length).foldl
        (fun bb c => recalcCell bb c.1 c.2) b := by
  unfold recalculateAdjacency cellPairs
  exact nestedFold_eq_pairs (fun bb yy xx => recalcCell bb yy xx) _ _ b

theorem recalcFold_props (L : List (Nat × Nat)) (b : Board) :
    sameShape b (L.foldl (fun bb c => recalcCell bb c.1 c.2) b) ∧
    AdjOnly b (L.foldl (fun bb c => recalcCell bb c.1 c.2) b) := by
  induction L generalizing b with
  | nil => exact ⟨sameShape_refl b, AdjOnly_refl b⟩
  | cons c tl ih =>
    rw [List.foldl_cons]
    obtain ⟨ihs, iha⟩ := ih (recalcCell b c.1 c.2)
    exact ⟨sameShape_trans (sameShape_recalcCell b c.1 c.2) ihs,
      AdjOnly_trans (adjOnly_recalcCell b c.1 c.2) iha⟩

theorem recalcFold_getTile (L : List (Nat × Nat)) (b : Board) (y x : Nat) :
    getTile (L.foldl (fun bb c => recalcCell bb c.1 c.2) b) y x =
      if (y, x) ∈ L ∧ y < b.length ∧ x < (b.getD y []).length
      then adjTarget b y x
      else getTile b y x := by
  induction L generalizing b with
  | nil => simp
  | cons c tl ih =>
    obtain ⟨cy, cx⟩ := c
    rw [List.foldl_cons, recalcCell_eq]
    set b1 := setTile b cy cx (adjTarget b cy cx) with hb1
    have hshape : sameShape b b1 := sameShape_setTile b cy cx _
    have hadj : AdjOnly b b1 := by
      have h0 := adjOnly_recalcCell b cy cx
      rwa [recalcCell_eq] at h0
    have hATeq : adjTarget b1 y x = adjTarget b y x :=
      adjTarget_congr b b1 y x hshape hadj
    rw [ih b1]
    by_cases hrange : y < b.length ∧ x < (b.getD y []).length
    · by_cases hmem : (y, x) ∈ tl
      · rw [if_pos ⟨hmem, by rw [hshape.1]; exact hrange.1,
          by rw [hshape.2 y]; exact hrange.2⟩, hATeq,
          if_pos ⟨List.mem_cons_of_mem _ hmem, hrange⟩]
      · rw [if_neg (fun hc => hmem hc.1), hb1, getTile_setTile]
        by_cases hcell : y = cy ∧ x = cx
        · obtain ⟨h1, h2⟩ := hcell
          subst h1; subst h2
          rw [if_pos ⟨rfl, rfl, hrange.1, hrange.2⟩,
            if_pos ⟨List.mem_cons_self _ _, hrange⟩]
        · have hne : ¬(y = cy ∧ x = cx ∧ cy < b.length ∧
              cx < (b.getD cy []).length) := fun hc => hcell ⟨hc.1, hc.2.1⟩
          rw [if_neg hne]
          have houter : ¬((y, x) ∈ (cy, cx) :: tl ∧ y < b.length ∧
              x < (b.getD y []).length) := by
            intro hc
            rcases List.mem_cons.mp hc.1 with heq | hmem'
            · injection heq with h1 h2
              exact hcell ⟨h1, h2⟩
            · exact hmem hmem'
          rw [if_neg houter]
    · rw [if_neg (fun hc => hrange ⟨by rw [← hshape.1]; exact hc.2.1,
        by rw [← hshape.2 y]; exact hc.2.2⟩), hb1, getTile_setTile]
      have hne : ¬(y = cy ∧ x = cx ∧ cy < b.length ∧
          cx < (b.getD cy []).length) := by
        intro hc
        refine hrange ⟨?_, ?_⟩
        · rw [hc.1]; exact hc.2.2.1
        · rw [hc.1, hc.2.1]; exact hc.2.2.2
      rw [if_neg hne, if_neg (fun hc => hrange hc.2)]

/-- Adjacency consistency: non-mine tiles count their mine neighbors,
mine tiles read 0. -/
def adjConsistent (b : Board) : Prop :=
  ∀ y x : Nat, y < b.length → x < (b.getD y []).length →
    ((getTile b y x).isMine = true → (getTile b y x).adjacentMines = 0) ∧
    ((getTile b y x).isMine = false →
      (getTile b y x).adjacentMines = (neighbors b x y).countP (·.isMine))

/-- Rectangularity: each (existing) row has the length of row 0. -/
def rect (b : Board) : Prop :=
  ∀ y : Nat, y < b.length → ((b.getD y []).length) = (b.getD 0 []).length

theorem rect_of_dims {b : Board} {rows cols : Nat} (hd : dims b rows cols)
    (hrows : 0 < rows) : rect b := by
  intro y hy
  rw [dims_row_getD b rows cols hd y (by rw [← hd.1]; exact hy),
    dims_row_getD b rows cols hd 0 hrows]

theorem recalc_getTile (b : Board) (hrect : rect b) (y x : Nat)
    (hy : y < b.length) (hx : x < (b.getD y []).length) :
    getTile (recalculateAdjacency b) y x = adjTarget b y x := by
  rw [recalculateAdjacency_eq_pairs, recalcFold_getTile]
  rw [if_pos ⟨(mem_cellPairs _ _ _ _).mpr ⟨hy, by rw [← hrect y hy]; exact hx⟩,
    hy, hx⟩]

theorem recalc_adjConsistent (b : Board) (hrect : rect b) :
    adjConsistent (recalculateAdjacency b) := by
  have hprops := recalculateAdjacency_eq_pairs b ▸
    recalcFold_props (cellPairs b.length (b.getD 0 []).length) b
  obtain ⟨hshape, hadj⟩ := hprops
  have hm : ∀ yy xx, (getTile (recalculateAdjacency b) yy xx).isMine =
      (getTile b yy xx).isMine := by
    intro yy xx
    obtain ⟨a, ha⟩ := hadj yy xx
    rw [ha]
  intro y x hy hx
  have hy' : y < b.length := by rw [← hshape.1]; exact hy
  have hx' : x < (b.getD y []).length := by rw [← hshape.2 y]; exact hx
  rw [recalc_getTile b hrect y x hy' hx']
  unfold adjTarget
  constructor
  · intro hmine
    simp only at hmine ⊢
    rw [if_pos hmine]
  · intro hmine
    simp only at hmine ⊢
    rw [if_neg (by rw [hmine]; simp),
      neighbors_countP_congr b (recalculateAdjacency b) x y hshape hm]

/-! ## Mine placement lemmas -/

theorem placeMines_board_eq (rand : Nat → Nat) (s : GameState) (sx sy : Nat) :
    (placeMinesAfterFirstClick rand s sx sy).board =
      recalculateAdjacency
        ((List.range (s.rows * s.cols).toNat).foldl
          (mineStep (minePositions rand s sx sy) s.cols.toNat) s.board) := rfl

theorem sameShape_mineStep (mp : List Nat) (cols : Nat) (bb : Board) (i : Nat) :
    sameShape bb (mineStep mp cols bb i) := by
  unfold mineStep
  split
  · exact sameShape_setTile _ _ _ _
  · exact sameShape_refl _

theorem mineOnly_mineStep (mp : List Nat) (cols : Nat) (bb : Board) (i : Nat) :
    MineOnly bb (mineStep mp cols bb i) := by
  unfold mineStep
  split
  · intro yy xx
    rw [getTile_setTile]
    split
    · rename_i hc
      obtain ⟨rfl, rfl, -, -⟩ := hc
      exact Or.inr rfl
    · exact Or.inl rfl
  · exact MineOnly_refl _

theorem mineFold_shape (mp : List Nat) (cols : Nat) :
    ∀ (L : List Nat) (bb : Board),
      sameShape bb (L.foldl (mineStep mp cols) bb) ∧
      MineOnly bb (L.foldl (mineStep mp cols) bb) := by
  intro L
  induction L with
  | nil => intro bb; exact ⟨sameShape_refl bb, MineOnly_refl bb⟩
  | cons i tl ih =>
    intro bb
    rw [List.foldl_cons]
    obtain ⟨ihs, ihm⟩ := ih (mineStep mp cols bb i)
    exact ⟨sameShape_trans (sameShape_mineStep mp cols bb i) ihs,
      MineOnly_trans (mineOnly_mineStep mp cols bb i) ihm⟩

theorem mineFold_untouched (mp : List Nat) (cols : Nat) (y x : Nat) :
    ∀ (L : List Nat) (bb : Board),
      (∀ i ∈ L, ¬(i / cols = y ∧ i % cols = x ∧ mp.contains i = true)) →
      getTile (L.foldl (mineStep mp cols) bb) y x = getTile bb y x := by
  intro L
  induction L with
  | nil => intro bb _; rfl
  | cons i tl ih =>
    intro bb h
    rw [List.foldl_cons]
    rw [ih _ fun j hj => h j (List.mem_cons_of_mem i hj)]
    unfold mineStep
    split
    · rename_i hcont
      rw [getTile_setTile]
      rw [if_neg ?_]
      intro hc
      exact h i (List.mem_cons_self i tl) ⟨hc.1.symm, hc.2.1.symm, hcont⟩
    · rfl

theorem mem_offsets9 (a b : Int) (ha : a.natAbs ≤ 1) (hb : b.natAbs ≤ 1) :
    (a, b) ∈ offsets9 := by
  have ha' : a = -1 ∨ a = 0 ∨ a = 1 := by omega
  have hb' : b = -1 ∨ b = 0 ∨ b = 1 := by omega
  rcases ha' with rfl | rfl | rfl <;> rcases hb' with rfl | rfl | rfl <;> decide

theorem mem_forbiddenIndices (s : GameState) (sx sy : Nat) (y' x' : Nat)
    (hsc : 0 ≤ s.cols)
    (hdy : ((y' : Int) - sy).natAbs ≤ 1) (hdx : ((x' : Int) - sx).natAbs ≤ 1)
    (hy : (y' : Int) < s.rows) (hx : (x' : Int) < s.cols) :
    y' * s.cols.toNat + x' ∈ forbiddenIndices s sx sy := by
  unfold forbiddenIndices
  refine List.mem_filterMap.mpr
    ⟨((y' : Int) - sy, (x' : Int) - sx), mem_offsets9 _ _ hdy hdx, ?_⟩
  have hyy : (sy : Int) + ((y' : Int) - sy) = (y' : Int) := by ring
  have hxx : (sx : Int) + ((x' : Int) - sx) = (x' : Int) := by ring
  simp only [hyy, hxx]
  rw [if_pos ⟨Int.natCast_nonneg y', hy, Int.natCast_nonneg x', hx⟩]
  congr 1
  have hcc : s.cols = (s.cols.toNat : Int) := (Int.toNat_of_nonneg hsc).symm
  nth_rewrite 1 [hcc]
  rw [← Int.natCast_mul, ← Int.natCast_add, Int.toNat_natCast]

/-- C6: after mine placement (which ends with `recalculateAdjacency`), every
non-mine tile's `adjacentMines` equals its count of in-bounds mine
neighbors, and every mine tile's `adjacentMines` is 0. -/
theorem placement_adjacency_consistent (rand : Nat → Nat) (s : GameState)
    (sx sy : Nat) (rows cols : Nat) (hdims : dims s.board rows cols)
    (hrows : 0 < rows) :
    adjConsistent (placeMinesAfterFirstClick rand s sx sy).board := by
  rw [placeMines_board_eq]
  exact recalc_adjConsistent _ (rect_of_dims (sameShape_dims
    ((mineFold_shape _ _ (List.range (s.rows * s.cols).toNat) s.board).1)
    hdims) hrows)

/-- C6 witness input facts. -/
theorem placement_adjacency_consistent_witness :
    adjConsistent (placeMinesAfterFirstClick (fun i => i * 13 + 5)
      (initialState 3 3 2 Difficulty.Custom) 1 1).board :=
  placement_adjacency_consistent (fun i => i * 13 + 5)
    (initialState 3 3 2 Difficulty.Custom) 1 1 3 3
    (dims_createMatrix 3 3 _) (by decide)

/-- The board produced by a first-click `reveal` on a hidden, unflagged,
non-mine tile: mines are placed and the flood fill runs from the tile. -/
theorem reveal_board_after (rand : Nat → Nat) (now : Int) (s : GameState)
    (x y : Int) (t : Tile)
    (hguard : ¬(s.status = GameStatus.Lost ∨ s.status = GameStatus.Won))
    (ht : tileAt s y x = some t) (hrv : t.isRevealed = false)
    (hfl : t.isFlagged = false) (hfc : s.firstClick = true)
    (hmine : t.isMine = false) :
    (reveal rand now s x y).board =
      revealFloodFill (placeMinesAfterFirstClick rand s t.x t.y).board
        t.x t.y := by
  unfold reveal
  rw [if_neg hguard, ht]
  dsimp only
  rw [if_neg (by simp [hrv, hfl])]
  simp only [hfc, if_true]
  rw [if_neg (by simp [hmine])]
  split <;> rfl

theorem recalc_props (b : Board) :
    sameShape b (recalculateAdjacency b) ∧ AdjOnly b (recalculateAdjacency b) := by
  rw [recalculateAdjacency_eq_pairs]
  exact recalcFold_props _ b

theorem placeMines_shape (rand : Nat → Nat) (s : GameState) (sx sy : Nat) :
    sameShape s.board (placeMinesAfterFirstClick rand s sx sy).board := by
  rw [placeMines_board_eq]
  exact sameShape_trans ((mineFold_shape _ _ _ s.board).1) (recalc_props _).1

/-- C1: on a fresh valid game, after the first `reveal(x, y)` neither the
clicked tile nor any in-bounds 8-neighbor is a mine — for every outcome of
the random shuffle. -/
theorem reveal_first_click_safe (rand : Nat → Nat) (now : Int)
    (rows cols mines : Int) (d : Difficulty) (x y : Int)
    (hr : 0 < rows) (hc : 0 < cols) (hm0 : 0 ≤ mines)
    (hmb : mines ≤ rows * cols - 9)
    (hx0 : 0 ≤ x) (hx1 : x < cols) (hy0 : 0 ≤ y) (hy1 : y < rows) :
    ∀ y' x' : Nat, y' < rows.toNat → x' < cols.toNat →
      ((y' : Int) - y).natAbs ≤ 1 → ((x' : Int) - x).natAbs ≤ 1 →
      (getTile (reveal rand now (initialState rows cols mines d) x y).board
        y' x').isMine = false := by
  intro y' x' hy' hx' hdy hdx
  have hdims : dims (initialState rows cols mines d).board rows.toNat cols.toNat :=
    dims_createMatrix rows cols _
  have hytn : y.toNat < rows.toNat := by omega
  have hxtn : x.toNat < cols.toNat := by omega
  have hblen : (initialState rows cols mines d).board.length = rows.toNat := hdims.1
  have hrowlen : ((initialState rows cols mines d).board.getD y.toNat []).length
      = cols.toNat := dims_row_getD _ _ _ hdims _ hytn
  have ht0 : getTile (initialState rows cols mines d).board y.toNat x.toNat =
      { x := x.toNat, y := y.toNat, isMine := false, isRevealed := false,
        isFlagged := false, adjacentMines := 0 } :=
    getTile_createMatrix rows cols _ y.toNat x.toNat hytn hxtn
  have hylen : y.toNat < (initialState rows cols mines d).board.length := by
    rw [hblen]; exact hytn
  have hxlen : x.toNat <
      ((initialState rows cols mines d).board.getD y.toNat []).length := by
    rw [hrowlen]; exact hxtn
  have htile : tileAt (initialState rows cols mines d) y x =
      some (getTile (initialState rows cols mines d).board y.toNat x.toNat) := by
    unfold tileAt
    have hgg : ¬(y < 0 ∨ (initialState rows cols mines d).rows ≤ y ∨ x < 0 ∨
        (initialState rows cols mines d).cols ≤ x) := by
      show ¬(y < 0 ∨ rows ≤ y ∨ x < 0 ∨ cols ≤ x)
      omega
    rw [if_neg hgg]
    have h1 : (initialState rows cols mines d).board[y.toNat]? =
        some ((initialState rows cols mines d).board.getD y.toNat []) := by
      rw [List.getElem?_eq_getElem hylen, getD_eq_getElem' _ _ hylen]
    rw [h1]
    simp only [Option.some_bind]
    rw [List.getElem?_eq_getElem hxlen, ← getD_eq_getElem' _ dTile hxlen]
    rfl
  have hguard : ¬((initialState rows cols mines d).status = GameStatus.Lost ∨
      (initialState rows cols mines d).status = GameStatus.Won) := by
    rintro (h | h) <;> simp [initialState] at h
  have hboard : (reveal rand now (initialState rows cols mines d) x y).board =
      revealFloodFill
        (placeMinesAfterFirstClick rand (initialState rows cols mines d)
          x.toNat y.toNat).board x.toNat y.toNat := by
    have h := reveal_board_after rand now (initialState rows cols mines d)
      x y _ hguard htile (by rw [ht0]) (by rw [ht0]) rfl (by rw [ht0])
    rw [ht0] at h
    exact h
  rw [hboard]
  -- flood fill preserves mines
  rw [(revealFloodFill_revOnly _ _ _).isMine_eq y' x']
  -- adjacency recalculation preserves mines
  rw [placeMines_board_eq]
  obtain ⟨a, ha⟩ := (recalc_props
    ((List.range ((initialState rows cols mines d).rows *
      (initialState rows cols mines d).cols).toNat).foldl
      (mineStep (minePositions rand (initialState rows cols mines d)
        x.toNat y.toNat)
        (initialState rows cols mines d).cols.toNat)
      (initialState rows cols mines d).board)).2 y' x'
  rw [ha]
  show (getTile ((List.range ((initialState rows cols mines d).rows *
      (initialState rows cols mines d).cols).toNat).foldl
      (mineStep (minePositions rand (initialState rows cols mines d)
        x.toNat y.toNat)
        (initialState rows cols mines d).cols.toNat)
      (initialState rows cols mines d).board) y' x').isMine = false
  -- the mine-marking loop never touches the exclusion zone
  have huntouched : ∀ i ∈ List.range ((initialState rows cols mines d).rows *
      (initialState rows cols mines d).cols).toNat,
      ¬(i / (initialState rows cols mines d).cols.toNat = y' ∧
        i % (initialState rows cols mines d).cols.toNat = x' ∧
        (minePositions rand (initialState rows cols mines d)
          x.toNat y.toNat).contains i = true) := by
    intro i _ hcon
    obtain ⟨hdiv, hmod, hcont⟩ := hcon
    have hieq : i = y' * (initialState rows cols mines d).cols.toNat + x' := by
      have hdm := Nat.div_add_mod i (initialState rows cols mines d).cols.toNat
      rw [hdiv, hmod] at hdm
      rw [← hdm, Nat.mul_comm]
    have himem : i ∈ minePositions rand (initialState rows cols mines d)
        x.toNat y.toNat := by
      obtain ⟨b, hb, hbeq⟩ := List.contains_iff_exists_mem_beq.mp hcont
      rw [eq_of_beq hbeq]
      exact hb
    have hcand := minePositions_subset rand (initialState rows cols mines d)
      x.toNat y.toNat i himem
    have hnotforb := candidateIndices_not_forbidden
      (initialState rows cols mines d) x.toNat y.toNat i hcand
    have hytI : ((y.toNat : Int)) = y := Int.toNat_of_nonneg hy0
    have hxtI : ((x.toNat : Int)) = x := Int.toNat_of_nonneg hx0
    have hforb := mem_forbiddenIndices (initialState rows cols mines d)
      x.toNat y.toNat y' x' (le_of_lt hc)
      (by rw [hytI]; exact hdy) (by rw [hxtI]; exact hdx)
      (by show (y' : Int) < rows; omega) (by show (x' : Int) < cols; omega)
    rw [← hieq] at hforb
    exact hnotforb hforb
  rw [mineFold_untouched _ _ y' x' _ _ huntouched]
  have hfinal : getTile (initialState rows cols mines d).board y' x' =
      { x := x', y := y', isMine := false, isRevealed := false,
        isFlagged := false, adjacentMines := 0 } :=
    getTile_createMatrix rows cols _ y' x' hy' hx'
  rw [hfinal]

/-! ## Reachable states -/

/-- States reachable from a validly configured `newGame` by any sequence of
player commands (with arbitrary shuffle outcomes and clock readings). -/
inductive Reachable : GameState → Prop
  | newGame (rows cols mines : Int) (d : Difficulty)
      (hr : 0 < rows) (hc : 0 < cols) (hm : 0 ≤ mines)
      (hmb : mines < rows * cols) :
      Reachable (newGame rows cols mines d)
  | reveal (s : GameState) (rand : Nat → Nat) (now x y : Int) :
      Reachable s → Reachable (reveal rand now s x y)
  | toggleFlag (s : GameState) (x y : Int) :
      Reachable s → Reachable (toggleFlag s x y)
  | chord (s : GameState) (x y : Int) :
      Reachable s → Reachable (chord s x y)
  | useHint (s : GameState) (rand : Nat → Nat) (now : Int) :
      Reachable s → Reachable (useHint rand now s)
  | restart (s : GameState) : Reachable s → Reachable (restart s)

/-! ## The revealed-and-flagged invariant (C10) -/

/-- A tile that is both revealed and flagged is a mine, and the game is
lost. -/
def RFInv (s : GameState) : Prop :=
  ∀ y x : Nat, y < s.board.length → x < (s.board.getD y []).length →
    (getTile s.board y x).isRevealed = true →
    (getTile s.board y x).isFlagged = true →
    (getTile s.board y x).isMine = true ∧ s.status = GameStatus.Lost

/-- No tile is simultaneously revealed and flagged. -/
def NoRF (b : Board) : Prop :=
  ∀ y x : Nat, y < b.length → x < (b.getD y []).length →
    ¬((getTile b y x).isRevealed = true ∧ (getTile b y x).isFlagged = true)

theorem NoRF_of_RFInv {s : GameState} (h : RFInv s)
    (hs : s.status ≠ GameStatus.Lost) : NoRF s.board := by
  intro y x hy hx hc
  exact hs (h y x hy hx hc.1 hc.2).2

theorem RFInv_of_NoRF {s : GameState} (h : NoRF s.board) : RFInv s := by
  intro y x hy hx hrev hfl
  exact absurd ⟨hrev, hfl⟩ (h y x hy hx)

theorem NoRF_revOnly {b b' : Board} (hsh : sameShape b b') (hrev : RevOnly b b')
    (h : NoRF b) : NoRF b' := by
  intro y x hy hx hc
  have hfl : (getTile b y x).isFlagged = true := by
    rw [← hrev.isFlagged_eq y x]; exact hc.2
  have heq := hrev.flagged_unchanged y x hfl
  rw [heq] at hc
  exact h y x (by rw [← hsh.1]; exact hy) (by rw [← hsh.2 y]; exact hx) hc

theorem NoRF_setTile_unflagged {b : Board} {y x : Nat} {t : Tile}
    (ht : t.isFlagged = false) (h : NoRF b) : NoRF (setTile b y x t) := by
  intro yy xx hy hx hc
  rw [getTile_setTile] at hc
  split at hc
  · rw [ht] at hc; cases hc.2
  · exact h yy xx (by rw [← length_setTile b y x t]; exact hy)
      (by rw [← rowLen_setTile b y x t yy]; exact hx) hc

theorem NoRF_skeleton {b b' : Board} (hsh : sameShape b b')
    (hsk : ∀ yy xx, (getTile b' yy xx).isRevealed = (getTile b yy xx).isRevealed ∧
      (getTile b' yy xx).isFlagged = (getTile b yy xx).isFlagged)
    (h : NoRF b) : NoRF b' := by
  intro y x hy hx hc
  rw [(hsk y x).1, (hsk y x).2] at hc
  exact h y x (by rw [← hsh.1]; exact hy) (by rw [← hsh.2 y]; exact hx) hc

theorem placeMines_cell (rand : Nat → Nat) (s : GameState) (sx sy : Nat)
    (yy xx : Nat) :
    ∃ m a, getTile (placeMinesAfterFirstClick rand s sx sy).board yy xx =
      { getTile s.board yy xx with isMine := m, adjacentMines := a } := by
  rw [placeMines_board_eq]
  obtain ⟨a, ha⟩ := (recalc_props _).2 yy xx
  rcases (mineFold_shape _ _ (List.range (s.rows * s.cols).toNat) s.board).2
    yy xx with h | h
  · exact ⟨(getTile s.board yy xx).isMine, a, by rw [ha, h]⟩
  · exact ⟨true, a, by rw [ha, h]⟩

theorem NoRF_placeMines {rand : Nat → Nat} {s : GameState} {sx sy : Nat}
    (h : NoRF s.board) :
    NoRF (placeMinesAfterFirstClick rand s sx sy).board := by
  refine NoRF_skeleton (placeMines_shape rand s sx sy) ?_ h
  intro yy xx
  obtain ⟨m, a, hcell⟩ := placeMines_cell rand s sx sy yy xx
  rw [hcell]
  exact ⟨rfl, rfl⟩

theorem revealAllMines_mine_of_rf {b : Board} (h : NoRF b) (yy xx : Nat)
    (hy : yy < (revealAllMines b).length)
    (hx : xx < ((revealAllMines b).getD yy []).length)
    (hrev : (getTile (revealAllMines b) yy xx).isRevealed = true)
    (hfl : (getTile (revealAllMines b) yy xx).isFlagged = true) :
    (getTile (revealAllMines b) yy xx).isMine = true := by
  have hy' : yy < b.length := by rw [← length_revealAllMines b]; exact hy
  have hx' : xx < (b.getD yy []).length := by
    rw [← rowLen_revealAllMines b yy]; exact hx
  rw [getTile_revealAllMines b yy xx hy' hx'] at hrev hfl ⊢
  split at hrev
  · rename_i hm
    rw [if_pos hm]
    exact hm
  · rename_i hm
    rw [if_neg hm] at hfl
    exact absurd ⟨hrev, hfl⟩ (h yy xx hy' hx')

theorem chordFold_props (ns : List Tile) :
    ∀ (b0 : Board) (f0 : Bool),
      sameShape b0 (ns.foldl chordStep (b0, f0)).1 ∧
      (NoRF b0 → NoRF (ns.foldl chordStep (b0, f0)).1) := by
  induction ns with
  | nil => intro b0 f0; exact ⟨sameShape_refl b0, fun h => h⟩
  | cons n tl ih =>
    intro b0 f0
    rw [List.foldl_cons]
    unfold chordStep
    split
    · rename_i hguard
      split
      · obtain ⟨ihs, ihn⟩ := ih (setTile b0 n.y n.x { n with isRevealed := true }) true
        refine ⟨sameShape_trans (sameShape_setTile b0 n.y n.x _) ihs, fun h => ?_⟩
        refine ihn (NoRF_setTile_unflagged ?_ h)
        have := hguard.1
        simp only [Bool.not_eq_true] at this
        exact this
      · obtain ⟨ihs, ihn⟩ := ih (revealFloodFill b0 n.x n.y) f0
        refine ⟨sameShape_trans (revealFloodFill_shape b0 n.x n.y) ihs, fun h => ?_⟩
        exact ihn (NoRF_revOnly (revealFloodFill_shape b0 n.x n.y)
          (revealFloodFill_revOnly b0 n.x n.y) h)
    · exact ih b0 f0

/-! ## RFInv preservation -/

theorem RFInv_initial (rows cols mines : Int) (d : Difficulty) :
    RFInv (initialState rows cols mines d) := by
  refine RFInv_of_NoRF ?_
  intro y x hy hx hc
  have hdims : dims (initialState rows cols mines d).board rows.toNat cols.toNat :=
    dims_createMatrix rows cols _
  have hy' : y < rows.toNat := by
    rw [← hdims.1]; exact hy
  have hx' : x < cols.toNat := by
    rw [← dims_row_getD _ _ _ hdims y hy']; exact hx
  have hcell : getTile (initialState rows cols mines d).board y x =
      { x := x, y := y, isMine := false, isRevealed := false,
        isFlagged := false, adjacentMines := 0 } :=
    getTile_createMatrix rows cols _ y x hy' hx'
  rw [hcell] at hc
  exact absurd hc.1 (by simp)

theorem RFInv_toggleFlag (s : GameState) (x y : Int) (h : RFInv s) :
    RFInv (toggleFlag s x y) := by
  unfold toggleFlag
  split
  · exact h
  rename_i hguard
  split
  · exact h
  rename_i t htile
  split
  · exact h
  rename_i hrev
  have hnl : s.status ≠ GameStatus.Lost := fun hc => hguard (Or.inl hc)
  refine RFInv_of_NoRF ?_
  show NoRF (setTile s.board t.y t.x { t with isFlagged := !t.isFlagged })
  by_cases hflagval : (!t.isFlagged) = false
  · exact NoRF_setTile_unflagged hflagval (NoRF_of_RFInv h hnl)
  · -- flagging a hidden tile: the new tile is not revealed
    intro yy xx hy hx hc
    rw [getTile_setTile] at hc
    split at hc
    · simp only [Bool.not_eq_true] at hrev
      rw [hrev] at hc
      cases hc.1
    · exact NoRF_of_RFInv h hnl yy xx
        (by rw [← length_setTile s.board t.y t.x _]; exact hy)
        (by rw [← rowLen_setTile s.board t.y t.x _ yy]; exact hx) hc

theorem RFInv_reveal (rand : Nat → Nat) (now : Int) (s : GameState)
    (x y : Int) (h : RFInv s) : RFInv (reveal rand now s x y) := by
  unfold reveal
  split
  · exact h
  rename_i hguard
  have hnl : s.status ≠ GameStatus.Lost := fun hc => hguard (Or.inl hc)
  have hnoRF : NoRF s.board := NoRF_of_RFInv h hnl
  split
  · exact h
  rename_i t htile
  split
  · exact h
  by_cases hfc : s.firstClick
  all_goals
    first
    | (simp only [hfc, if_true]
       split
       · -- mine hit after placement: all mines revealed, status Lost
         rename_i hmine
         intro yy xx hy hx hrev hfl
         refine ⟨?_, rfl⟩
         exact revealAllMines_mine_of_rf (NoRF_placeMines hnoRF) yy xx hy hx
           hrev hfl
       · -- flood fill: no revealed-and-flagged tile appears
         have hnoRF1 : NoRF (revealFloodFill
             (placeMinesAfterFirstClick rand s t.x t.y).board t.x t.y) :=
           NoRF_revOnly (revealFloodFill_shape _ _ _)
             (revealFloodFill_revOnly _ _ _) (NoRF_placeMines hnoRF)
         split
         · exact RFInv_of_NoRF hnoRF1
         · exact RFInv_of_NoRF hnoRF1)
    | (simp only [Bool.not_eq_true] at hfc
       simp only [hfc, Bool.false_eq_true, if_false]
       split
       · rename_i hmine
         intro yy xx hy hx hrev hfl
         refine ⟨?_, rfl⟩
         exact revealAllMines_mine_of_rf hnoRF yy xx hy hx hrev hfl
       · have hnoRF1 : NoRF (revealFloodFill s.board t.x t.y) :=
           NoRF_revOnly (revealFloodFill_shape _ _ _)
             (revealFloodFill_revOnly _ _ _) hnoRF
         split
         · exact RFInv_of_NoRF hnoRF1
         · exact RFInv_of_NoRF hnoRF1)

theorem RFInv_chord (s : GameState) (x y : Int) (h : RFInv s) :
    RFInv (chord s x y) := by
  unfold chord
  split
  · exact h
  rename_i hpl
  rw [not_not] at hpl
  have hnoRF : NoRF s.board := NoRF_of_RFInv h (by rw [hpl]; intro hc; cases hc)
  split
  · exact h
  rename_i t htile
  split
  · exact h
  dsimp only
  split
  · exact h
  obtain ⟨hfsh, hfn⟩ := chordFold_props (neighbors s.board t.x t.y) s.board false
  split
  · -- mine hit: all mines revealed, status Lost
    intro yy xx hy hx hrev hfl
    exact ⟨revealAllMines_mine_of_rf (hfn hnoRF) yy xx hy hx hrev hfl, rfl⟩
  · have hn1 := hfn hnoRF
    split
    · exact RFInv_of_NoRF hn1
    · exact RFInv_of_NoRF hn1

theorem RFInv_useHint (rand : Nat → Nat) (now : Int) (s : GameState)
    (h : RFInv s) : RFInv (useHint rand now s) := by
  unfold useHint
  split
  · exact h
  split
  · exact h
  rename_i c _
  exact RFInv_reveal rand now s (c.1 : Int) (c.2 : Int) h

theorem RFInv_reachable {s : GameState} (h : Reachable s) : RFInv s := by
  induction h with
  | newGame rows cols mines d hr hc hm hmb => exact RFInv_initial rows cols mines d
  | reveal s rand now x y _ ih => exact RFInv_reveal rand now s x y ih
  | toggleFlag s x y _ ih => exact RFInv_toggleFlag s x y ih
  | chord s x y _ ih => exact RFInv_chord s x y ih
  | useHint s rand now _ ih => exact RFInv_useHint rand now s ih
  | restart s _ _ => exact RFInv_initial s.rows s.cols s.mines s.difficulty

/-- C10: in every reachable state, a tile that is both revealed and flagged
is a mine, and the game is lost (the reveal-all-mines step on loss is the
only way to reveal a flagged tile). -/
theorem revealed_flagged_is_lost_mine (s : GameState) (h : Reachable s) :
    ∀ y x : Nat, y < s.board.length → x < (s.board.getD y []).length →
      (getTile s.board y x).isRevealed = true →
      (getTile s.board y x).isFlagged = true →
      (getTile s.board y x).isMine = true ∧ s.status = GameStatus.Lost :=
  RFInv_reachable h

theorem revealed_flagged_is_lost_mine_witness :
    (getTile (reveal (fun i => i) 0
        (toggleFlag (reveal (fun i => i) 0 (newGame 1 5 2 Difficulty.Custom)
          0 0) 2 0) 3 0).board 0 2).isMine = true ∧
      (reveal (fun i => i) 0
        (toggleFlag (reveal (fun i => i) 0 (newGame 1 5 2 Difficulty.Custom)
          0 0) 2 0) 3 0).status = GameStatus.Lost :=
  revealed_flagged_is_lost_mine _
    (Reachable.reveal _ (fun i => i) 0 3 0
      (Reachable.toggleFlag _ 2 0
        (Reachable.reveal _ (fun i => i) 0 0 0
          (Reachable.newGame 1 5 2 Difficulty.Custom (by decide) (by decide)
            (by decide) (by decide)))))
    0 2 (by decide) (by decide) (by decide) (by decide)

/-! ## Invariant ingredients for the win condition -/

/-- A pristine (pre-placement) board: no mines, nothing revealed, zero
adjacency everywhere. -/
def Pristine (b : Board) : Prop :=
  ∀ y x : Nat, y < b.length → x < (b.getD y []).length →
    (getTile b y x).isMine = false ∧ (getTile b y x).isRevealed = false ∧
    (getTile b y x).adjacentMines = 0

/-- Every tile records its own position. -/
def CoordsOK (b : Board) : Prop :=
  ∀ y x : Nat, y < b.length → x < (b.getD y []).length →
    (getTile b y x).x = x ∧ (getTile b y x).y = y

theorem CoordsOK_initial (rows cols mines : Int) (d : Difficulty) :
    CoordsOK (initialState rows cols mines d).board := by
  intro y x hy hx
  have hdims : dims (initialState rows cols mines d).board rows.toNat cols.toNat :=
    dims_createMatrix rows cols _
  have hy' : y < rows.toNat := by rw [← hdims.1]; exact hy
  have hx' : x < cols.toNat := by
    rw [← dims_row_getD _ _ _ hdims y hy']; exact hx
  have hcell : getTile (initialState rows cols mines d).board y x =
      { x := x, y := y, isMine := false, isRevealed := false,
        isFlagged := false, adjacentMines := 0 } :=
    getTile_createMatrix rows cols _ y x hy' hx'
  rw [hcell]
  exact ⟨rfl, rfl⟩

theorem Pristine_initial (rows cols mines : Int) (d : Difficulty) :
    Pristine (initialState rows cols mines d).board := by
  intro y x hy hx
  have hdims : dims (initialState rows cols mines d).board rows.toNat cols.toNat :=
    dims_createMatrix rows cols _
  have hy' : y < rows.toNat := by rw [← hdims.1]; exact hy
  have hx' : x < cols.toNat := by
    rw [← dims_row_getD _ _ _ hdims y hy']; exact hx
  have hcell : getTile (initialState rows cols mines d).board y x =
      { x := x, y := y, isMine := false, isRevealed := false,
        isFlagged := false, adjacentMines := 0 } :=
    getTile_createMatrix rows cols _ y x hy' hx'
  rw [hcell]
  exact ⟨rfl, rfl, rfl⟩

theorem CoordsOK_setTile {b : Board} {y x : Nat} {t : Tile}
    (ht : t.x = x ∧ t.y = y) (h : CoordsOK b) : CoordsOK (setTile b y x t) := by
  intro yy xx hy hx
  rw [getTile_setTile]
  split
  · rename_i hc
    obtain ⟨rfl, rfl, -, -⟩ := hc
    exact ht
  · exact h yy xx (by rw [← length_setTile b y x t]; exact hy)
      (by rw [← rowLen_setTile b y x t yy]; exact hx)

theorem CoordsOK_transfer {b b' : Board} (hsh : sameShape b b')
    (hpt : ∀ yy xx, (getTile b' yy xx).x = (getTile b yy xx).x ∧
      (getTile b' yy xx).y = (getTile b yy xx).y)
    (h : CoordsOK b) : CoordsOK b' := by
  intro y x hy hx
  rw [(hpt y x).1, (hpt y x).2]
  exact h y x (by rw [← hsh.1]; exact hy) (by rw [← hsh.2 y]; exact hx)

theorem adjConsistent_transfer {b b' : Board} (hsh : sameShape b b')
    (hm : ∀ yy xx, (getTile b' yy xx).isMine = (getTile b yy xx).isMine)
    (ha : ∀ yy xx, (getTile b' yy xx).adjacentMines =
      (getTile b yy xx).adjacentMines)
    (h : adjConsistent b) : adjConsistent b' := by
  intro y x hy hx
  have hy' : y < b.length := by rw [← hsh.1]; exact hy
  have hx' : x < (b.getD y []).length := by rw [← hsh.2 y]; exact hx
  obtain ⟨h1, h2⟩ := h y x hy' hx'
  rw [hm y x, ha y x]
  refine ⟨h1, fun hnm => ?_⟩
  rw [h2 hnm]
  exact (neighbors_countP_congr b b' x y hsh hm).symm

theorem neighbors_mem {b : Board} (hrect : rect b) {x0 y0 : Nat} {n : Tile}
    (hn : n ∈ neighbors b x0 y0) :
    ∃ ny nx : Nat, ny < b.length ∧ nx < (b.getD ny []).length ∧
      getTile b ny nx = n := by
  unfold neighbors at hn
  obtain ⟨p, -, hsome⟩ := List.mem_filterMap.mp hn
  split at hsome
  · rename_i hc
    obtain ⟨h1, h2, h3, h4⟩ := hc
    refine ⟨((y0 : Int) + p.1).toNat, ((x0 : Int) + p.2).toNat, by omega, ?_,
      by injection hsome⟩
    have hylt : ((y0 : Int) + p.1).toNat < b.length := by omega
    rw [hrect _ hylt]
    omega
  · cases hsome

/-- Splitting a count over a second predicate. -/
theorem countP_split (l : List Tile) (p q : Tile → Bool) :
    l.countP p = l.countP (fun a => p a && q a) +
      l.countP (fun a => p a && !q a) := by
  induction l with
  | nil => rfl
  | cons a tl ih =>
    by_cases hp : p a
    · by_cases hq : q a <;>
        simp [List.countP_cons, hp, hq, ih] <;> omega
    · simp [List.countP_cons, hp, ih]

/-- If two predicates have the same count and some element satisfies `q` but
not `p`, some element satisfies `p` but not `q`. -/
theorem countP_exchange (l : List Tile) (p q : Tile → Bool)
    (h : l.countP p = l.countP q)
    (hx : ∃ a ∈ l, q a = true ∧ p a = false) :
    ∃ b ∈ l, p b = true ∧ q b = false := by
  have hsplit1 := countP_split l p q
  have hsplit2 := countP_split l q p
  have hcomm : l.countP (fun a => q a && p a) =
      l.countP (fun a => p a && q a) :=
    List.countP_congr fun a _ => by
      cases hpa : p a <;> cases hqa : q a <;> simp [hpa, hqa]
  have hqnp : 0 < l.countP (fun a => q a && !p a) := by
    obtain ⟨a, ha, hq, hp⟩ := hx
    exact List.countP_pos_iff.mpr ⟨a, ha, by simp [hq, hp]⟩
  have hpnq : 0 < l.countP (fun a => p a && !q a) := by omega
  obtain ⟨a, ha, hcond⟩ := List.countP_pos_iff.mp hpnq
  refine ⟨a, ha, ?_, ?_⟩
  · cases hpa : p a
    · rw [hpa] at hcond; simp at hcond
    · rfl
  · cases hqa : q a
    · rfl
    · rw [hqa] at hcond; simp at hcond

/-- If the chord loop reports a mine hit, some neighbor was an unflagged,
unrevealed mine. -/
theorem chordFold_hit (ns : List Tile) :
    ∀ (b0 : Board) (f0 : Bool),
      (ns.foldl chordStep (b0, f0)).2 = true →
      f0 = true ∨ ∃ n ∈ ns, n.isFlagged = false ∧ n.isRevealed = false ∧
        n.isMine = true := by
  induction ns with
  | nil => intro b0 f0 h; exact Or.inl h
  | cons n tl ih =>
    intro b0 f0 h
    rw [List.foldl_cons] at h
    unfold chordStep at h
    split at h
    · rename_i hguard
      split at h
      · rename_i hmine
        refine Or.inr ⟨n, List.mem_cons_self n tl, ?_, ?_, hmine⟩
        · have := hguard.1; simp only [Bool.not_eq_true] at this; exact this
        · have := hguard.2; simp only [Bool.not_eq_true] at this; exact this
      · rcases ih _ _ h with hf | ⟨m, hm, hprops⟩
        · exact Or.inl hf
        · exact Or.inr ⟨m, List.mem_cons_of_mem n hm, hprops⟩
    · rcases ih _ _ h with hf | ⟨m, hm, hprops⟩
      · exact Or.inl hf
      · exact Or.inr ⟨m, List.mem_cons_of_mem n hm, hprops⟩

/-- The chord loop only reveals hidden, unflagged tiles (relative to the
original board), provided every processed neighbor is a tile of that
board. -/
theorem chordFold_revOnly (b : Board) :
    ∀ (ns : List Tile),
      (∀ n ∈ ns, ∃ ny nx : Nat, ny < b.length ∧
        nx < (b.getD ny []).length ∧ getTile b ny nx = n ∧
        n.y = ny ∧ n.x = nx) →
      ∀ (acc : Board × Bool), RevOnly b acc.1 → sameShape b acc.1 →
        RevOnly b (ns.foldl chordStep acc).1 ∧
        sameShape b (ns.foldl chordStep acc).1 := by
  intro ns
  induction ns with
  | nil => intro _ acc hrev hsh; exact ⟨hrev, hsh⟩
  | cons n tl ih =>
    intro hmem acc hrev hsh
    rw [List.foldl_cons]
    have htl := fun m hm => hmem m (List.mem_cons_of_mem n hm)
    obtain ⟨ny, nx, hny, hnx, hcell, hyc, hxc⟩ :=
      hmem n (List.mem_cons_self n tl)
    unfold chordStep
    split
    · rename_i hguard
      have hnf : n.isFlagged = false := by
        have := hguard.1; simp only [Bool.not_eq_true] at this; exact this
      have hnr : n.isRevealed = false := by
        have := hguard.2; simp only [Bool.not_eq_true] at this; exact this
      split
      · -- reveal the mine neighbor directly
        refine ih htl _ ?_ ?_
        · show RevOnly b (setTile acc.1 n.y n.x { n with isRevealed := true })
          intro yy xx
          rw [getTile_setTile]
          split
          · rename_i hc
            obtain ⟨rfl, rfl, -, -⟩ := hc
            have hcell' : getTile b n.y n.x = n := by rw [hyc, hxc]; exact hcell
            rw [hcell']
            exact Or.inr ⟨rfl, hnr, hnf⟩
          · exact hrev yy xx
        · exact sameShape_trans hsh (sameShape_setTile acc.1 n.y n.x _)
      · -- flood fill from the safe neighbor
        refine ih htl _ ?_ ?_
        · exact RevOnly_trans hrev (revealFloodFill_revOnly acc.1 n.x n.y)
        · exact sameShape_trans hsh (revealFloodFill_shape acc.1 n.x n.y)
    · exact ih htl acc hrev hsh

/-! ## The core invariant (win condition and bookkeeping) -/

def CoreInv (s : GameState) : Prop :=
  dims s.board s.rows.toNat s.cols.toNat ∧
  1 ≤ s.rows ∧ 1 ≤ s.cols ∧
  CoordsOK s.board ∧
  (s.status = GameStatus.Ready ↔ s.firstClick = true) ∧
  (s.status = GameStatus.Ready → Pristine s.board) ∧
  (s.status ≠ GameStatus.Ready → adjConsistent s.board) ∧
  (s.status = GameStatus.Won ↔ countHiddenNonMines s.board = 0)

theorem Pristine_transfer {b b' : Board} (hsh : sameShape b b')
    (hpt : ∀ yy xx, (getTile b' yy xx).isMine = (getTile b yy xx).isMine ∧
      (getTile b' yy xx).isRevealed = (getTile b yy xx).isRevealed ∧
      (getTile b' yy xx).adjacentMines = (getTile b yy xx).adjacentMines)
    (h : Pristine b) : Pristine b' := by
  intro y x hy hx
  rw [(hpt y x).1, (hpt y x).2.1, (hpt y x).2.2]
  exact h y x (by rw [← hsh.1]; exact hy) (by rw [← hsh.2 y]; exact hx)

theorem CoreInv_initial (rows cols mines : Int) (d : Difficulty)
    (hr : 1 ≤ rows) (hc : 1 ≤ cols) :
    CoreInv (initialState rows cols mines d) := by
  have hdims : dims (initialState rows cols mines d).board rows.toNat cols.toNat :=
    dims_createMatrix rows cols _
  refine ⟨hdims, hr, hc, CoordsOK_initial rows cols mines d,
    ⟨fun _ => rfl, fun _ => rfl⟩, fun _ => Pristine_initial rows cols mines d,
    fun hx => absurd rfl hx, ?_⟩
  constructor
  · intro hW
    exact absurd hW (by simp [initialState])
  · intro hcount
    have hy : 0 < (initialState rows cols mines d).board.length := by
      rw [hdims.1]; omega
    have hx : 0 < ((initialState rows cols mines d).board.getD 0 []).length := by
      rw [dims_row_getD _ _ _ hdims 0 (by rw [← hdims.1]; exact hy)]; omega
    have hpr := Pristine_initial rows cols mines d 0 0 hy hx
    have hpos := countHiddenNonMines_pos _ 0 0 hy hx
      (by unfold hiddenNonMine; rw [hpr.1, hpr.2.1]; rfl)
    omega

theorem CoreInv_toggleFlag (s : GameState) (x y : Int) (h : CoreInv s) :
    CoreInv (toggleFlag s x y) := by
  unfold toggleFlag
  split
  · exact h
  rename_i hguard
  split
  · exact h
  rename_i t htile
  split
  · exact h
  rename_i hrev
  obtain ⟨hdims, hr, hc, hcoords, hready, hpris, hadj, hwon⟩ := h
  obtain ⟨hy0, hy1, hx0, hx1, hylen, hxlen, hteq⟩ := tileAt_some htile
  obtain ⟨htx, hty⟩ := hcoords y.toNat x.toNat hylen hxlen
  rw [← hteq] at htx hty
  have htcell : getTile s.board t.y t.x = t := by
    rw [hty, htx]; exact hteq.symm
  have htylen : t.y < s.board.length := by rw [hty]; exact hylen
  have htxlen : t.x < (s.board.getD t.y []).length := by
    rw [hty, htx]; exact hxlen
  have hrev' : t.isRevealed = false := by
    simp only [Bool.not_eq_true] at hrev; exact hrev
  have hptm : ∀ yy xx,
      (getTile (setTile s.board t.y t.x { t with isFlagged := !t.isFlagged })
        yy xx).isMine = (getTile s.board yy xx).isMine ∧
      (getTile (setTile s.board t.y t.x { t with isFlagged := !t.isFlagged })
        yy xx).isRevealed = (getTile s.board yy xx).isRevealed ∧
      (getTile (setTile s.board t.y t.x { t with isFlagged := !t.isFlagged })
        yy xx).adjacentMines = (getTile s.board yy xx).adjacentMines ∧
      (getTile (setTile s.board t.y t.x { t with isFlagged := !t.isFlagged })
        yy xx).x = (getTile s.board yy xx).x ∧
      (getTile (setTile s.board t.y t.x { t with isFlagged := !t.isFlagged })
        yy xx).y = (getTile s.board yy xx).y := by
    intro yy xx
    rw [getTile_setTile]
    split
    · rename_i hcc
      obtain ⟨rfl, rfl, -, -⟩ := hcc
      rw [htcell]
      exact ⟨rfl, rfl, rfl, rfl, rfl⟩
    · exact ⟨rfl, rfl, rfl, rfl, rfl⟩
  have hsh := sameShape_setTile s.board t.y t.x { t with isFlagged := !t.isFlagged }
  refine ⟨dims_setTile _ _ _ hdims _ _ _, hr, hc, ?_, hready, ?_, ?_, ?_⟩
  · exact CoordsOK_setTile ⟨rfl, rfl⟩ hcoords
  · intro hR
    exact Pristine_transfer hsh
      (fun yy xx => ⟨(hptm yy xx).1, (hptm yy xx).2.1, (hptm yy xx).2.2.1⟩)
      (hpris hR)
  · intro hR
    exact adjConsistent_transfer hsh (fun yy xx => (hptm yy xx).1)
      (fun yy xx => (hptm yy xx).2.2.1) (hadj hR)
  · have hcnt : countHiddenNonMines
        (setTile s.board t.y t.x { t with isFlagged := !t.isFlagged }) =
        countHiddenNonMines s.board := by
      refine countHiddenNonMines_setTile s.board t.y t.x _ htylen htxlen ?_
      rw [htcell]
      rfl
    show s.status = GameStatus.Won ↔ _ = 0
    rw [hcnt]
    exact hwon

theorem getTile_oob_row (b : Board) (yy xx : Nat) (h : b.length ≤ yy) :
    getTile b yy xx = dTile := by
  unfold getTile
  rw [List.getD_eq_default _ _ h]
  rfl

theorem getTile_oob_col (b : Board) (yy xx : Nat)
    (h : (b.getD yy []).length ≤ xx) : getTile b yy xx = dTile := by
  unfold getTile
  rw [List.getD_eq_default _ _ h]

theorem revealAllMines_fields (b : Board) (yy xx : Nat) :
    (getTile (revealAllMines b) yy xx).isMine = (getTile b yy xx).isMine ∧
    (getTile (revealAllMines b) yy xx).adjacentMines =
      (getTile b yy xx).adjacentMines ∧
    (getTile (revealAllMines b) yy xx).isFlagged = (getTile b yy xx).isFlagged ∧
    (getTile (revealAllMines b) yy xx).x = (getTile b yy xx).x ∧
    (getTile (revealAllMines b) yy xx).y = (getTile b yy xx).y := by
  by_cases hy : yy < b.length
  · by_cases hx : xx < (b.getD yy []).length
    · rw [getTile_revealAllMines b yy xx hy hx]
      split
      · exact ⟨rfl, rfl, rfl, rfl, rfl⟩
      · exact ⟨rfl, rfl, rfl, rfl, rfl⟩
    · rw [getTile_oob_col _ _ _ (Nat.le_of_not_lt hx),
        getTile_oob_col (revealAllMines b) yy xx (by
          rw [rowLen_revealAllMines b yy]; exact Nat.le_of_not_lt hx)]
      exact ⟨rfl, rfl, rfl, rfl, rfl⟩
  · rw [getTile_oob_row _ _ _ (Nat.le_of_not_lt hy),
      getTile_oob_row (revealAllMines b) yy xx (by
        rw [length_revealAllMines b]; exact Nat.le_of_not_lt hy)]
    exact ⟨rfl, rfl, rfl, rfl, rfl⟩

theorem sameShape_revealAllMines (b : Board) : sameShape b (revealAllMines b) :=
  ⟨length_revealAllMines b, rowLen_revealAllMines b⟩

theorem placeMines_coords (rand : Nat → Nat) (s : GameState) (sx sy : Nat)
    (h : CoordsOK s.board) :
    CoordsOK (placeMinesAfterFirstClick rand s sx sy).board := by
  refine CoordsOK_transfer (placeMines_shape rand s sx sy) ?_ h
  intro yy xx
  obtain ⟨m, a, hcell⟩ := placeMines_cell rand s sx sy yy xx
  rw [hcell]
  exact ⟨rfl, rfl⟩

theorem CoreInv_reveal (rand : Nat → Nat) (now : Int) (s : GameState)
    (x y : Int) (h : CoreInv s) : CoreInv (reveal rand now s x y) := by
  unfold reveal
  split
  · exact h
  rename_i hguard
  split
  · exact h
  rename_i t htile
  split
  · exact h
  obtain ⟨hdims, hr, hc, hcoords, hready, hpris, hadj, hwon⟩ := h
  obtain ⟨hy0, hy1, hx0, hx1, hylen, hxlen, hteq⟩ := tileAt_some htile
  obtain ⟨htx, hty⟩ := hcoords y.toNat x.toNat hylen hxlen
  rw [← hteq] at htx hty
  by_cases hfc : s.firstClick
  · -- first click: game is Ready, the board pristine, so `t` is no mine
    have hReady : s.status = GameStatus.Ready := hready.mpr hfc
    have hPr := hpris hReady
    have htmine : t.isMine = false := by
      rw [hteq]; exact (hPr y.toNat x.toNat hylen hxlen).1
    simp only [hfc, if_true]
    split
    · rename_i hmine
      rw [htmine] at hmine
      cases hmine
    · have hpm_shape := placeMines_shape rand s t.x t.y
      have hff_shape := revealFloodFill_shape
        (placeMinesAfterFirstClick rand s t.x t.y).board t.x t.y
      have hff_rev := revealFloodFill_revOnly
        (placeMinesAfterFirstClick rand s t.x t.y).board t.x t.y
      have hdims' : dims (revealFloodFill
          (placeMinesAfterFirstClick rand s t.x t.y).board t.x t.y)
          s.rows.toNat s.cols.toNat :=
        sameShape_dims hff_shape (sameShape_dims hpm_shape hdims)
      have hcoords' : CoordsOK (revealFloodFill
          (placeMinesAfterFirstClick rand s t.x t.y).board t.x t.y) :=
        CoordsOK_transfer hff_shape (hff_rev.coords_eq)
          (placeMines_coords rand s t.x t.y hcoords)
      have hadj' : adjConsistent (revealFloodFill
          (placeMinesAfterFirstClick rand s t.x t.y).board t.x t.y) :=
        adjConsistent_transfer hff_shape hff_rev.isMine_eq hff_rev.adj_eq
          (placement_adjacency_consistent rand s t.x t.y
            s.rows.toNat s.cols.toNat hdims (by omega))
      split
      · rename_i hcnt
        exact ⟨hdims', hr, hc, hcoords',
          ⟨fun hco => (nomatch hco), fun hco => (nomatch hco)⟩,
          fun hco => (nomatch hco), fun _ => hadj',
          ⟨fun _ => hcnt, fun _ => rfl⟩⟩
      · rename_i hcnt
        exact ⟨hdims', hr, hc, hcoords',
          ⟨fun hco => (nomatch hco), fun hco => (nomatch hco)⟩,
          fun hco => (nomatch hco), fun _ => hadj',
          ⟨fun hco => (nomatch hco), fun hco => absurd hco hcnt⟩⟩
  · -- later click: the game is Playing
    simp only [Bool.not_eq_true] at hfc
    have hPlaying : s.status = GameStatus.Playing := by
      cases hst : s.status
      · exact absurd (hready.mp hst) (by rw [hfc]; exact fun hco => (nomatch hco))
      · rfl
      · exact absurd (Or.inr hst) hguard
      · exact absurd (Or.inl hst) hguard
    have hadjS : adjConsistent s.board :=
      hadj (by rw [hPlaying]; exact fun hco => (nomatch hco))
    simp only [hfc, Bool.false_eq_true, if_false]
    split
    · -- a mine was revealed: reveal all mines, Lost
      have hshm := sameShape_revealAllMines s.board
      refine ⟨sameShape_dims hshm hdims, hr, hc, ?_, ?_, ?_, ?_, ?_⟩
      · exact CoordsOK_transfer hshm
          (fun yy xx => ⟨(revealAllMines_fields s.board yy xx).2.2.2.1,
            (revealAllMines_fields s.board yy xx).2.2.2.2⟩) hcoords
      · exact ⟨fun hco => (nomatch hco),
          fun hco => (nomatch hco)⟩
      · exact fun hco => (nomatch hco)
      · exact fun _ => adjConsistent_transfer hshm
          (fun yy xx => (revealAllMines_fields s.board yy xx).1)
          (fun yy xx => (revealAllMines_fields s.board yy xx).2.1) hadjS
      · refine ⟨fun hco => (nomatch hco), fun hcnt => ?_⟩
        rw [countHiddenNonMines_revealAllMines s.board] at hcnt
        exact absurd (hwon.mpr hcnt) (by rw [hPlaying]; exact fun hco => (nomatch hco))
    · -- safe reveal: flood fill, then the explicit win check
      have hff_shape := revealFloodFill_shape s.board t.x t.y
      have hff_rev := revealFloodFill_revOnly s.board t.x t.y
      have hdims' := sameShape_dims hff_shape hdims
      have hcoords' := CoordsOK_transfer hff_shape (hff_rev.coords_eq) hcoords
      have hadj' := adjConsistent_transfer hff_shape hff_rev.isMine_eq
        hff_rev.adj_eq hadjS
      split
      · rename_i hcnt
        exact ⟨hdims', hr, hc, hcoords',
          ⟨fun hco => (nomatch hco),
           fun hco => (nomatch hco)⟩,
          fun hco => (nomatch hco), fun _ => hadj',
          ⟨fun _ => hcnt, fun _ => rfl⟩⟩
      · rename_i hcnt
        exact ⟨hdims', hr, hc, hcoords',
          ⟨fun hco => (nomatch hPlaying.symm.trans hco),
           fun hco => (nomatch hco)⟩,
          fun hco => (nomatch hPlaying.symm.trans hco),
          fun _ => hadj',
          ⟨fun hco => (nomatch hPlaying.symm.trans hco),
           fun hco => absurd hco hcnt⟩⟩

theorem CoreInv_chord (s : GameState) (x y : Int) (h : CoreInv s)
    (hRF : RFInv s) : CoreInv (chord s x y) := by
  unfold chord
  split
  · exact h
  rename_i hpl
  rw [not_not] at hpl
  split
  · exact h
  rename_i t htile
  split
  · exact h
  rename_i hcond
  push_neg at hcond
  simp only [Bool.not_eq_true] at hcond
  obtain ⟨hcrev, hcmine, hcadj⟩ := hcond
  dsimp only
  split
  · exact h
  rename_i hflags
  rw [not_not] at hflags
  obtain ⟨hdims, hr, hc, hcoords, hready, hpris, hadj, hwon⟩ := h
  obtain ⟨hy0, hy1, hx0, hx1, hylen, hxlen, hteq⟩ := tileAt_some htile
  obtain ⟨htx, hty⟩ := hcoords y.toNat x.toNat hylen hxlen
  rw [← hteq] at htx hty
  have hadjS : adjConsistent s.board :=
    hadj (by rw [hpl]; exact fun hco => (nomatch hco))
  have hrect : rect s.board := rect_of_dims hdims (by omega)
  have hnsmem : ∀ n ∈ neighbors s.board t.x t.y,
      ∃ ny nx : Nat, ny < s.board.length ∧ nx < (s.board.getD ny []).length ∧
        getTile s.board ny nx = n ∧ n.y = ny ∧ n.x = nx := by
    intro n hn
    obtain ⟨ny, nx, hny, hnx, hcell⟩ := neighbors_mem hrect hn
    obtain ⟨hcx, hcy⟩ := hcoords ny nx hny hnx
    exact ⟨ny, nx, hny, hnx, hcell,
      by rw [← hcell]; exact hcy, by rw [← hcell]; exact hcx⟩
  obtain ⟨hfoldRev, hfoldSh⟩ := chordFold_revOnly s.board
    (neighbors s.board t.x t.y) hnsmem (s.board, false)
    (RevOnly_refl s.board) (sameShape_refl s.board)
  have hdims' := sameShape_dims hfoldSh hdims
  have hcoords' := CoordsOK_transfer hfoldSh hfoldRev.coords_eq hcoords
  have hadj' := adjConsistent_transfer hfoldSh hfoldRev.isMine_eq
    hfoldRev.adj_eq hadjS
  have hfcFalse : s.firstClick = false := by
    cases hfcv : s.firstClick
    · rfl
    · exact absurd (hready.mpr hfcv)
        (by rw [hpl]; exact fun hco => (nomatch hco))
  split
  · -- a mine was hit: some neighbor was flagged wrongly and stays hidden
    rename_i hhit
    have hmine_ex : ∃ n ∈ neighbors s.board t.x t.y,
        n.isFlagged = false ∧ n.isRevealed = false ∧ n.isMine = true := by
      rcases chordFold_hit (neighbors s.board t.x t.y) s.board false hhit with
        hf | hex
      · cases hf
      · exact hex
    have htmine' : (getTile s.board y.toNat x.toNat).isMine = false := by
      rw [← hteq]; exact hcmine
    have hadjt : t.adjacentMines =
        (neighbors s.board t.x t.y).countP (·.isMine) := by
      rw [htx, hty, hteq]
      exact (hadjS y.toNat x.toNat hylen hxlen).2 htmine'
    have hexch : ∃ f ∈ neighbors s.board t.x t.y,
        f.isFlagged = true ∧ f.isMine = false := by
      refine countP_exchange _ (·.isFlagged) (·.isMine) (hflags.trans hadjt) ?_
      obtain ⟨n, hn, hnf, hnr, hnm⟩ := hmine_ex
      exact ⟨n, hn, hnm, hnf⟩
    obtain ⟨f, hfmem, hffl, hfnm⟩ := hexch
    obtain ⟨fy, fx, hfy, hfx, hfcell, hfyc, hfxc⟩ := hnsmem f hfmem
    have hfhid : f.isRevealed = false := by
      cases hfr : f.isRevealed
      · rfl
      · have hlost := hRF fy fx hfy hfx (by rw [hfcell]; exact hfr)
          (by rw [hfcell]; exact hffl)
        exact absurd hlost.2 (by rw [hpl]; exact fun hco => (nomatch hco))
    have hrescell : getTile ((neighbors s.board t.x t.y).foldl chordStep
        (s.board, false)).1 fy fx = getTile s.board fy fx :=
      hfoldRev.flagged_unchanged fy fx (by rw [hfcell]; exact hffl)
    have hfy' : fy < ((neighbors s.board t.x t.y).foldl chordStep
        (s.board, false)).1.length := by rw [hfoldSh.1]; exact hfy
    have hfx' : fx < (((neighbors s.board t.x t.y).foldl chordStep
        (s.board, false)).1.getD fy []).length := by
      rw [hfoldSh.2 fy]; exact hfx
    have hfin : (getTile (revealAllMines ((neighbors s.board t.x t.y).foldl
        chordStep (s.board, false)).1) fy fx).isMine = false ∧
        (getTile (revealAllMines ((neighbors s.board t.x t.y).foldl
          chordStep (s.board, false)).1) fy fx).isRevealed = false := by
      rw [getTile_revealAllMines _ fy fx hfy' hfx', hrescell, hfcell]
      rw [if_neg (by rw [hfnm]; exact fun hco => (nomatch hco))]
      exact ⟨hfnm, hfhid⟩
    have hcpos : 0 < countHiddenNonMines (revealAllMines
        ((neighbors s.board t.x t.y).foldl chordStep (s.board, false)).1) := by
      refine countHiddenNonMines_pos _ fy fx ?_ ?_ ?_
      · rw [length_revealAllMines]; exact hfy'
      · rw [rowLen_revealAllMines]; exact hfx'
      · unfold hiddenNonMine
        rw [hfin.1, hfin.2]
        rfl
    have hshm := sameShape_revealAllMines ((neighbors s.board t.x t.y).foldl
      chordStep (s.board, false)).1
    refine ⟨sameShape_dims hshm hdims', hr, hc, ?_, ?_, ?_, ?_, ?_⟩
    · exact CoordsOK_transfer hshm
        (fun yy xx => ⟨(revealAllMines_fields _ yy xx).2.2.2.1,
          (revealAllMines_fields _ yy xx).2.2.2.2⟩) hcoords'
    · exact ⟨fun hco => (nomatch hco),
        fun hco => (nomatch hfcFalse.symm.trans
          (show s.firstClick = true from hco))⟩
    · exact fun hco => (nomatch hco)
    · exact fun _ => adjConsistent_transfer hshm
        (fun yy xx => (revealAllMines_fields _ yy xx).1)
        (fun yy xx => (revealAllMines_fields _ yy xx).2.1) hadj'
    · exact ⟨fun hco => (nomatch hco), fun hcnt =>
        absurd (show countHiddenNonMines (revealAllMines
          ((neighbors s.board t.x t.y).foldl chordStep (s.board, false)).1) = 0
          from hcnt) (by omega)⟩
  · -- no mine hit: the explicit win check runs
    split
    · rename_i hcnt
      exact ⟨hdims', hr, hc, hcoords',
        ⟨fun hco => (nomatch hco),
         fun hco => (nomatch hfcFalse.symm.trans
           (show s.firstClick = true from hco))⟩,
        fun hco => (nomatch hco), fun _ => hadj',
        ⟨fun _ => hcnt, fun _ => rfl⟩⟩
    · rename_i hcnt
      exact ⟨hdims', hr, hc, hcoords',
        ⟨fun hco => (nomatch hpl.symm.trans
           (show s.status = GameStatus.Ready from hco)),
         fun hco => (nomatch hfcFalse.symm.trans
           (show s.firstClick = true from hco))⟩,
        fun hco => (nomatch hpl.symm.trans
          (show s.status = GameStatus.Ready from hco)),
        fun _ => hadj',
        ⟨fun hco => (nomatch hpl.symm.trans
           (show s.status = GameStatus.Won from hco)),
         fun hco => absurd hco hcnt⟩⟩

theorem CoreInv_useHint (rand : Nat → Nat) (now : Int) (s : GameState)
    (h : CoreInv s) : CoreInv (useHint rand now s) := by
  unfold useHint
  split
  · exact h
  split
  · exact h
  rename_i c _
  have h' := CoreInv_reveal rand now s (c.1 : Int) (c.2 : Int) h
  exact h'

theorem CoreInv_reachable {s : GameState} (h : Reachable s) :
    CoreInv s ∧ RFInv s := by
  induction h with
  | newGame rows cols mines d hr hc hm hmb =>
    exact ⟨CoreInv_initial rows cols mines d hr hc,
      RFInv_initial rows cols mines d⟩
  | reveal s rand now x y _ ih =>
    exact ⟨CoreInv_reveal rand now s x y ih.1, RFInv_reveal rand now s x y ih.2⟩
  | toggleFlag s x y _ ih =>
    exact ⟨CoreInv_toggleFlag s x y ih.1, RFInv_toggleFlag s x y ih.2⟩
  | chord s x y _ ih =>
    exact ⟨CoreInv_chord s x y ih.1 ih.2, RFInv_chord s x y ih.2⟩
  | useHint s rand now _ ih =>
    exact ⟨CoreInv_useHint rand now s ih.1, RFInv_useHint rand now s ih.2⟩
  | restart s _ ih =>
    exact ⟨CoreInv_initial s.rows s.cols s.mines s.difficulty
      ih.1.2.1 ih.1.2.2.1, RFInv_initial s.rows s.cols s.mines s.difficulty⟩

/-- C3: in every reachable state, `status = Won` holds exactly when the
count of hidden non-mine tiles is 0. -/
theorem win_iff_no_hidden_safe_tiles (s : GameState) (h : Reachable s) :
    s.status = GameStatus.Won ↔ countHiddenNonMines s.board = 0 :=
  (CoreInv_reachable h).1.2.2.2.2.2.2.2

theorem win_iff_no_hidden_safe_tiles_witness :
    (reveal (fun i => i) 0 (newGame 2 2 0 Difficulty.Custom) 0 0).status =
      GameStatus.Won ↔
    countHiddenNonMines
      (reveal (fun i => i) 0 (newGame 2 2 0 Difficulty.Custom) 0 0).board = 0 :=
  win_iff_no_hidden_safe_tiles _
    (Reachable.reveal _ (fun i => i) 0 0 0
      (Reachable.newGame 2 2 0 Difficulty.Custom (by decide) (by decide)
        (by decide) (by decide)))

/-! ## Flood-fill characterization (C5) -/

/-- In-bounds as checked by `enqueue` (coordinates `(x, y)`; the column
bound is row 0's length, the row bound the board length). -/
def inBB (b : Board) (c : Nat × Nat) : Prop :=
  c.1 < (b.getD 0 []).length ∧ c.2 < b.length

/-- One king-move step, exactly the 8 offsets the flood fill enqueues. -/
def stepAdj (c d : Nat × Nat) : Prop :=
  ∃ p ∈ offsets, (d.1 : Int) = (c.1 : Int) + p.2 ∧ (d.2 : Int) = (c.2 : Int) + p.1

/-- A dequeued tile propagates iff it is hidden, unflagged, has zero
adjacency and is not a mine. -/
def ffExpands (b : Board) (c : Nat × Nat) : Prop :=
  (getTile b c.2 c.1).isRevealed = false ∧
  (getTile b c.2 c.1).isFlagged = false ∧
  (getTile b c.2 c.1).adjacentMines = 0 ∧
  (getTile b c.2 c.1).isMine = false

/-- The cells the flood fill visits: the start, closed under king-moves out
of expanding cells. -/
inductive FFReach (b : Board) (start : Nat × Nat) : Nat × Nat → Prop
  | start : inBB b start → FFReach b start start
  | step (c d : Nat × Nat) : FFReach b start c → ffExpands b c →
      stepAdj c d → inBB b d → FFReach b start d

/-- All in-bounds cells as `(x, y)` pairs. -/
def ffCells (rows cols : Nat) : List (Nat × Nat) := cellPairs cols rows

theorem mem_ffCells (rows cols x y : Nat) :
    (x, y) ∈ ffCells rows cols ↔ x < cols ∧ y < rows :=
  mem_cellPairs cols rows x y

theorem nodup_ffCells (rows cols : Nat) : (ffCells rows cols).Nodup := by
  have hEq : ffCells rows cols = List.range cols ×ˢ List.range rows := rfl
  rw [hEq]
  exact (List.nodup_range _).product (List.nodup_range _)

theorem length_ffCells (rows cols : Nat) :
    (ffCells rows cols).length = cols * rows := by
  have hEq : ffCells rows cols = List.range cols ×ˢ List.range rows := rfl
  rw [hEq, List.length_product, List.length_range, List.length_range]

/-- Remaining unvisited in-bounds cells, the variant of the loop. -/
def unvisitedCount (rows cols : Nat) (v : List (Nat × Nat)) : Nat :=
  ((ffCells rows cols).filter (fun c => !(v.contains c))).length

def ffMeasure (rows cols : Nat) (q v : List (Nat × Nat)) : Nat :=
  9 * unvisitedCount rows cols v + q.length

theorem filter_length_remove {l : List (Nat × Nat)} (hnd : l.Nodup)
    {a : Nat × Nat} (ha : a ∈ l) {p p' : Nat × Nat → Bool}
    (hpa : p a = true) (hpa' : p' a = false)
    (hagree : ∀ b ≠ a, p b = p' b) :
    (l.filter p').length + 1 = (l.filter p).length := by
  induction l with
  | nil => cases ha
  | cons x tl ih =>
    rcases List.mem_cons.mp ha with heq | hmem
    · subst heq
      have htl : tl.filter p' = tl.filter p := by
        refine List.filter_congr fun b hb => ?_
        have hne : b ≠ a := fun hco => (List.nodup_cons.mp hnd).1 (hco ▸ hb)
        exact (hagree b hne).symm
      rw [List.filter_cons, List.filter_cons, hpa, hpa', htl]
      simp
    · have hxa : x ≠ a := fun hco =>
        (List.nodup_cons.mp hnd).1 (hco ▸ hmem)
      have hx : p x = p' x := hagree x hxa
      rw [List.filter_cons, List.filter_cons, ← hx]
      have ihr := ih (List.nodup_cons.mp hnd).2 hmem
      split
      · simp only [List.length_cons]
        omega
      · omega

theorem unvisitedCount_insert (rows cols : Nat) (v : List (Nat × Nat))
    (c : Nat × Nat) (hin : c ∈ ffCells rows cols) (hnot : c ∉ v) :
    unvisitedCount rows cols (c :: v) + 1 = unvisitedCount rows cols v := by
  unfold unvisitedCount
  refine filter_length_remove (nodup_ffCells rows cols) hin ?_ ?_ ?_
  · rw [Bool.not_eq_true']
    rw [← Bool.not_eq_true]
    intro hco
    exact hnot (by
      obtain ⟨b, hb, hbeq⟩ := List.contains_iff_exists_mem_beq.mp hco
      rw [eq_of_beq hbeq]; exact hb)
  · have : (c :: v).contains c = true := by
      simp [List.contains_cons]
    rw [this]
    rfl
  · intro b hb
    have : v.contains b = (c :: v).contains b := by
      rw [List.contains_cons]
      have : (b == c) = false := by
        rw [beq_eq_false_iff_ne]
        exact hb
      rw [this]
      simp
    rw [this]

theorem enqueue_cases (rows cols : Nat)
    (st : List (Nat × Nat) × List (Nat × Nat)) (xi yi : Int) :
    ((xi < 0 ∨ (cols : Int) ≤ xi ∨ yi < 0 ∨ (rows : Int) ≤ yi) ∧
      enqueue rows cols st xi yi = st) ∨
    (0 ≤ xi ∧ xi < cols ∧ 0 ≤ yi ∧ yi < rows ∧
      (xi.toNat, yi.toNat) ∈ st.2 ∧ enqueue rows cols st xi yi = st) ∨
    (0 ≤ xi ∧ xi < cols ∧ 0 ≤ yi ∧ yi < rows ∧
      (xi.toNat, yi.toNat) ∉ st.2 ∧
      enqueue rows cols st xi yi =
        (st.1 ++ [(xi.toNat, yi.toNat)], (xi.toNat, yi.toNat) :: st.2)) := by
  unfold enqueue
  split
  · rename_i hb
    exact Or.inl ⟨hb, rfl⟩
  · rename_i hb
    push_neg at hb
    obtain ⟨h1, h2, h3, h4⟩ := hb
    dsimp only
    split
    · rename_i hv
      exact Or.inr (Or.inl ⟨h1, h2, h3, h4, hv, rfl⟩)
    · rename_i hv
      exact Or.inr (Or.inr ⟨h1, h2, h3, h4, hv, rfl⟩)

/-- Full specification of the neighbor-enqueueing fold. -/
theorem enqueueFold_spec (rows cols cx cy : Nat) :
    ∀ (ps : List (Int × Int)) (q v : List (Nat × Nat)),
      (∀ c ∈ q, c ∈ v) → q.Nodup →
      (∀ c ∈ v,
        c ∈ (ps.foldl (fun st p =>
          enqueue rows cols st ((cx : Int) + p.2) ((cy : Int) + p.1)) (q, v)).2) ∧
      (∀ c ∈ (ps.foldl (fun st p =>
          enqueue rows cols st ((cx : Int) + p.2) ((cy : Int) + p.1)) (q, v)).2,
        c ∈ v ∨ (c ∉ v ∧ c.1 < cols ∧ c.2 < rows ∧
          ∃ p ∈ ps, (c.1 : Int) = (cx : Int) + p.2 ∧ (c.2 : Int) = (cy : Int) + p.1)) ∧
      (ps.foldl (fun st p =>
          enqueue rows cols st ((cx : Int) + p.2) ((cy : Int) + p.1)) (q, v)).1.Nodup ∧
      (∀ c, c ∈ (ps.foldl (fun st p =>
          enqueue rows cols st ((cx : Int) + p.2) ((cy : Int) + p.1)) (q, v)).1 ↔
        c ∈ q ∨ (c ∈ (ps.foldl (fun st p =>
          enqueue rows cols st ((cx : Int) + p.2) ((cy : Int) + p.1)) (q, v)).2 ∧
          c ∉ v)) ∧
      (∀ d : Nat × Nat, d.1 < cols → d.2 < rows →
        (∃ p ∈ ps, (d.1 : Int) = (cx : Int) + p.2 ∧ (d.2 : Int) = (cy : Int) + p.1) →
        d ∈ (ps.foldl (fun st p =>
          enqueue rows cols st ((cx : Int) + p.2) ((cy : Int) + p.1)) (q, v)).2) ∧
      (9 * unvisitedCount rows cols (ps.foldl (fun st p =>
          enqueue rows cols st ((cx : Int) + p.2) ((cy : Int) + p.1)) (q, v)).2 +
        (ps.foldl (fun st p =>
          enqueue rows cols st ((cx : Int) + p.2) ((cy : Int) + p.1)) (q, v)).1.length ≤
        9 * unvisitedCount rows cols v + q.length) := by
  intro ps
  induction ps with
  | nil =>
    intro q v hqv hnd
    exact ⟨fun c hc => hc, fun c hc => Or.inl hc, hnd,
      fun c => ⟨fun hc => Or.inl hc, fun hc => hc.elim id fun h => absurd h.1 h.2⟩,
      fun d _ _ hd => absurd hd (by simp), le_refl _⟩
  | cons p ps ih =>
    intro q v hqv hnd
    rw [List.foldl_cons]
    rcases enqueue_cases rows cols (q, v) ((cx : Int) + p.2) ((cy : Int) + p.1)
      with ⟨hoob, heq⟩ | ⟨h1, h2, h3, h4, hv, heq⟩ | ⟨h1, h2, h3, h4, hv, heq⟩
    · -- out of bounds: state unchanged
      rw [heq]
      obtain ⟨ha, hb, hc, hd, he, hf⟩ := ih q v hqv hnd
      refine ⟨ha, ?_, hc, hd, ?_, hf⟩
      · intro c hcm
        rcases hb c hcm with h | ⟨hn, hcc, hcr, pp, hpp, hppe⟩
        · exact Or.inl h
        · exact Or.inr ⟨hn, hcc, hcr, pp, List.mem_cons_of_mem p hpp, hppe⟩
      · intro d hdc hdr hde
        obtain ⟨pp, hpp, hppe⟩ := hde
        rcases List.mem_cons.mp hpp with heqp | hpp'
        · subst heqp
          exfalso
          obtain ⟨he1, he2⟩ := hppe
          rcases hoob with h | h | h | h <;> omega
        · exact he d hdc hdr ⟨pp, hpp', hppe⟩
    · -- already visited: state unchanged
      rw [heq]
      obtain ⟨ha, hb, hc, hd, he, hf⟩ := ih q v hqv hnd
      refine ⟨ha, ?_, hc, hd, ?_, hf⟩
      · intro c hcm
        rcases hb c hcm with h | ⟨hn, hcc, hcr, pp, hpp, hppe⟩
        · exact Or.inl h
        · exact Or.inr ⟨hn, hcc, hcr, pp, List.mem_cons_of_mem p hpp, hppe⟩
      · intro d hdc hdr hde
        obtain ⟨pp, hpp, hppe⟩ := hde
        rcases List.mem_cons.mp hpp with heqp | hpp'
        · subst heqp
          have hdeq : d = (((cx : Int) + pp.2).toNat, ((cy : Int) + pp.1).toNat) := by
            obtain ⟨d1, d2⟩ := d
            simp only at hppe ⊢
            obtain ⟨he1, he2⟩ := hppe
            rw [← he1, ← he2, Int.toNat_natCast, Int.toNat_natCast]
          rw [hdeq]
          exact ha _ hv
        · exact he d hdc hdr ⟨pp, hpp', hppe⟩
    · -- fresh cell pushed
      rw [heq]
      have hqv' : ∀ c ∈ q ++ [(((cx : Int) + p.2).toNat, ((cy : Int) + p.1).toNat)],
          c ∈ (((cx : Int) + p.2).toNat, ((cy : Int) + p.1).toNat) :: v := by
        intro c hcm
        rcases List.mem_append.mp hcm with h | h
        · exact List.mem_cons_of_mem _ (hqv c h)
        · rw [List.mem_singleton.mp h]
          exact List.mem_cons_self _ _
      have hnd' : (q ++ [(((cx : Int) + p.2).toNat, ((cy : Int) + p.1).toNat)]).Nodup := by
        rw [List.nodup_append]
        exact ⟨hnd, List.nodup_singleton _,
          fun c hcq => by
            rw [List.mem_singleton]
            intro hco
            exact hv (hco ▸ hqv c hcq)⟩
      obtain ⟨ha, hb, hc, hd, he, hf⟩ := ih _ _ hqv' hnd'
      refine ⟨?_, ?_, hc, ?_, ?_, ?_⟩
      · intro c hcm
        exact ha c (List.mem_cons_of_mem _ hcm)
      · intro c hcm
        rcases hb c hcm with h | ⟨hn, hcc, hcr, pp, hpp, hppe⟩
        · rcases List.mem_cons.mp h with heqc | hcv
          · subst heqc
            refine Or.inr ⟨hv, ?_, ?_, p, List.mem_cons_self p ps, ?_, ?_⟩
            · show ((cx : Int) + p.2).toNat < cols
              omega
            · show ((cy : Int) + p.1).toNat < rows
              omega
            · show ((((cx : Int) + p.2).toNat : Nat) : Int) = (cx : Int) + p.2
              rw [Int.toNat_of_nonneg (by omega)]
            · show ((((cy : Int) + p.1).toNat : Nat) : Int) = (cy : Int) + p.1
              rw [Int.toNat_of_nonneg (by omega)]
          · exact Or.inl hcv
        · refine Or.inr ⟨fun hcv => hn (List.mem_cons_of_mem _ hcv), hcc, hcr,
            pp, List.mem_cons_of_mem p hpp, hppe⟩
      · intro c
        rw [hd c]
        constructor
        · rintro (hcq | ⟨hc2, hcnv⟩)
          · rcases List.mem_append.mp hcq with h | h
            · exact Or.inl h
            · rw [List.mem_singleton.mp h]
              exact Or.inr ⟨ha _ (List.mem_cons_self _ _), hv⟩
          · refine Or.inr ⟨hc2, fun hcv => hcnv (List.mem_cons_of_mem _ hcv)⟩
        · rintro (hcq | ⟨hc2, hcnv⟩)
          · exact Or.inl (List.mem_append.mpr (Or.inl hcq))
          · by_cases hceq : c = (((cx : Int) + p.2).toNat, ((cy : Int) + p.1).toNat)
            · exact Or.inl (List.mem_append.mpr (Or.inr (by rw [hceq]; simp)))
            · exact Or.inr ⟨hc2, fun hcv => by
                rcases List.mem_cons.mp hcv with h | h
                · exact hceq h
                · exact hcnv h⟩
      · intro d hdc hdr hde
        obtain ⟨pp, hpp, hppe⟩ := hde
        rcases List.mem_cons.mp hpp with heqp | hpp'
        · subst heqp
          have hdeq : d = (((cx : Int) + pp.2).toNat, ((cy : Int) + pp.1).toNat) := by
            obtain ⟨d1, d2⟩ := d
            simp only at hppe ⊢
            obtain ⟨he1, he2⟩ := hppe
            rw [← he1, ← he2, Int.toNat_natCast, Int.toNat_natCast]
          rw [hdeq]
          exact ha _ (List.mem_cons_self _ _)
        · exact he d hdc hdr ⟨pp, hpp', hppe⟩
      · have hcnt := unvisitedCount_insert rows cols v
          (((cx : Int) + p.2).toNat, ((cy : Int) + p.1).toNat)
          ((mem_ffCells rows cols _ _).mpr ⟨by omega, by omega⟩) hv
        refine le_trans hf ?_
        rw [List.length_append]
        simp only [List.length_singleton]
        omega

/-- Intermediate flood-fill board description: cells satisfying `P` that are
hidden and unflagged in `b` have been revealed; every other cell is exactly
as in `b`. -/
def ffMid (b : Board) (P : Nat × Nat → Prop) (out : Board) : Prop :=
  ∀ y x : Nat,
    ((P (x, y) ∧ (getTile b y x).isRevealed = false ∧
        (getTile b y x).isFlagged = false) →
      getTile out y x = { getTile b y x with isRevealed := true }) ∧
    ((¬ P (x, y) ∨ (getTile b y x).isRevealed = true ∨
        (getTile b y x).isFlagged = true) →
      getTile out y x = getTile b y x)

/-- BFS invariant for `ffLoop`: given a sound, in-bounds visited set whose
pending queue is a nodup subset, a board that reflects exactly the processed
cells, closure for processed expanding cells, and enough gas, the loop ends
with a sound, closed visited superset `V` whose processed form is the final
board. -/
theorem ffLoop_characterized (b : Board) (start : Nat × Nat) (hrect : rect b) :
    ∀ (gas : Nat) (queue visited : List (Nat × Nat)) (out : Board),
      sameShape b out →
      (∀ c ∈ visited, FFReach b start c) →
      (∀ c ∈ visited, inBB b c) →
      (∀ c ∈ queue, c ∈ visited) →
      queue.Nodup →
      ffMid b (fun c => c ∈ visited ∧ c ∉ queue) out →
      (∀ c ∈ visited, c ∉ queue → ffExpands b c →
        ∀ d, stepAdj c d → inBB b d → d ∈ visited) →
      ffMeasure b.length ((b.getD 0 []).length) queue visited ≤ gas →
      ∃ V : List (Nat × Nat),
        (∀ c ∈ visited, c ∈ V) ∧
        (∀ c ∈ V, FFReach b start c) ∧
        (∀ c ∈ V, ffExpands b c → ∀ d, stepAdj c d → inBB b d → d ∈ V) ∧
        ffMid b (fun c => c ∈ V)
          (ffLoop b.length ((b.getD 0 []).length) gas queue visited out) := by
  intro gas
  induction gas with
  | zero =>
    intro queue visited out hshape hI1 hI2 hI3 hI4 hmid hI6 hM
    have hM' : 9 * unvisitedCount b.length ((b.getD 0 []).length) visited
        + queue.length ≤ 0 := hM
    have hq : queue = [] := List.eq_nil_of_length_eq_zero (by omega)
    subst hq
    simp only [ffLoop]
    refine ⟨visited, fun c hc => hc, hI1, ?_, ?_⟩
    · intro c hcV hexp d hd hbd
      exact hI6 c hcV (List.not_mem_nil c) hexp d hd hbd
    · intro yy xx
      refine ⟨?_, ?_⟩
      · rintro ⟨hP, hrev, hfl⟩
        exact (hmid yy xx).1 ⟨⟨hP, List.not_mem_nil _⟩, hrev, hfl⟩
      · rintro (hP | h | h)
        · exact (hmid yy xx).2 (Or.inl fun hPo => hP hPo.1)
        · exact (hmid yy xx).2 (Or.inr (Or.inl h))
        · exact (hmid yy xx).2 (Or.inr (Or.inr h))
  | succ gas ih =>
    intro queue visited out hshape hI1 hI2 hI3 hI4 hmid hI6 hM
    rcases queue with _ | ⟨⟨x, y⟩, rest⟩
    · simp only [ffLoop]
      refine ⟨visited, fun c hc => hc, hI1, ?_, ?_⟩
      · intro c hcV hexp d hd hbd
        exact hI6 c hcV (List.not_mem_nil c) hexp d hd hbd
      · intro yy xx
        refine ⟨?_, ?_⟩
        · rintro ⟨hP, hrev, hfl⟩
          exact (hmid yy xx).1 ⟨⟨hP, List.not_mem_nil _⟩, hrev, hfl⟩
        · rintro (hP | h | h)
          · exact (hmid yy xx).2 (Or.inl fun hPo => hP hPo.1)
          · exact (hmid yy xx).2 (Or.inr (Or.inl h))
          · exact (hmid yy xx).2 (Or.inr (Or.inr h))
    · have pairNe : ∀ yy xx : Nat, (xx, yy) ≠ (x, y) → (yy ≠ y ∨ xx ≠ x) := by
        intro yy xx hceq
        by_cases h1 : yy = y
        · refine Or.inr fun h2 => hceq ?_
          rw [h1, h2]
        · exact Or.inl h1
      have hheadv : (x, y) ∈ visited := hI3 (x, y) (List.mem_cons_self _ _)
      have hout_b : getTile out y x = getTile b y x :=
        (hmid y x).2 (Or.inl fun hP => hP.2 (List.mem_cons_self _ _))
      have hin : inBB b (x, y) := hI2 (x, y) hheadv
      have hxlt : x < ((b.getD 0 []).length) := hin.1
      have hylt : y < b.length := hin.2
      have hyo : y < out.length := by rw [hshape.1]; exact hylt
      have hxo : x < ((out.getD y []).length) := by
        rw [hshape.2 y, hrect y hylt]
        exact hxlt
      simp only [ffLoop]
      split
      · -- skip: out-tile (= b-tile) already revealed or flagged
        rename_i hcond
        have hbcond : (getTile b y x).isRevealed = true ∨
            (getTile b y x).isFlagged = true := by
          rw [← hout_b]; exact hcond
        refine ih rest visited out hshape hI1 hI2
          (fun c hc => hI3 c (List.mem_cons_of_mem _ hc)) hI4.of_cons ?_ ?_ ?_
        · intro yy xx
          refine ⟨?_, ?_⟩
          · rintro ⟨⟨hvis, hnr⟩, hrev, hfl⟩
            by_cases hceq : (xx, yy) = (x, y)
            · exfalso
              have hxx : xx = x := congrArg Prod.fst hceq
              have hyy : yy = y := congrArg Prod.snd hceq
              subst hxx; subst hyy
              rcases hbcond with h | h
              · rw [hrev] at h; exact Bool.false_ne_true h
              · rw [hfl] at h; exact Bool.false_ne_true h
            · refine (hmid yy xx).1 ⟨⟨hvis, ?_⟩, hrev, hfl⟩
              intro hq
              rcases List.mem_cons.mp hq with h | h
              · exact hceq h
              · exact hnr h
          · rintro (hnp | h | h)
            · refine (hmid yy xx).2 (Or.inl ?_)
              intro hPo
              exact hnp ⟨hPo.1, fun hr => hPo.2 (List.mem_cons_of_mem _ hr)⟩
            · exact (hmid yy xx).2 (Or.inr (Or.inl h))
            · exact (hmid yy xx).2 (Or.inr (Or.inr h))
        · intro c hcv hcnr hexp d hd hbd
          by_cases hceq : c = (x, y)
          · exfalso
            rw [hceq] at hexp
            have hexp1 : (getTile b y x).isRevealed = false := hexp.1
            have hexp2 : (getTile b y x).isFlagged = false := hexp.2.1
            rcases hbcond with h | h
            · rw [hexp1] at h; exact Bool.false_ne_true h
            · rw [hexp2] at h; exact Bool.false_ne_true h
          · refine hI6 c hcv ?_ hexp d hd hbd
            intro hq
            rcases List.mem_cons.mp hq with h | h
            · exact hceq h
            · exact hcnr h
        · have h0 : 9 * unvisitedCount b.length ((b.getD 0 []).length) visited
              + ((x, y) :: rest).length ≤ gas + 1 := hM
          show 9 * unvisitedCount b.length ((b.getD 0 []).length) visited
              + rest.length ≤ gas
          simp only [List.length_cons] at h0
          omega
      · -- the dequeued tile gets revealed
        rename_i hcond
        push_neg at hcond
        obtain ⟨hrevne, hflne⟩ := hcond
        have hbrev : (getTile b y x).isRevealed = false := by
          rw [← hout_b]; exact Bool.eq_false_iff.mpr hrevne
        have hbfl : (getTile b y x).isFlagged = false := by
          rw [← hout_b]; exact Bool.eq_false_iff.mpr hflne
        have hshape2 : sameShape b
            (setTile out y x { getTile out y x with isRevealed := true }) :=
          sameShape_trans hshape (sameShape_setTile out y x _)
        have hself : getTile
            (setTile out y x { getTile out y x with isRevealed := true }) y x
            = { getTile b y x with isRevealed := true } := by
          rw [getTile_setTile_self out y x _ hyo hxo, hout_b]
        split
        · -- zero tile, not a mine: enqueue all 8 neighbors
          rename_i hcond2
          obtain ⟨hadj0, hmine⟩ := hcond2
          have hbadj : (getTile b y x).adjacentMines = 0 := by
            rw [← hout_b]; exact hadj0
          have hbmine : (getTile b y x).isMine = false := by
            rw [← hout_b]; exact Bool.eq_false_iff.mpr hmine
          have hexp_head : ffExpands b (x, y) := ⟨hbrev, hbfl, hbadj, hbmine⟩
          have hrq : ∀ c ∈ rest, c ∈ visited :=
            fun c hc => hI3 c (List.mem_cons_of_mem _ hc)
          obtain ⟨ha2, hb2, hnd2, hqc2, hcomp2, hme2⟩ :=
            enqueueFold_spec b.length ((b.getD 0 []).length) x y offsets
              rest visited hrq hI4.of_cons
          have hq2 : ∀ c ∈ (offsets.foldl
              (fun st p => enqueue b.length ((b.getD 0 []).length) st
                ((x : Int) + p.2) ((y : Int) + p.1)) (rest, visited)).1,
              c ∈ (offsets.foldl
              (fun st p => enqueue b.length ((b.getD 0 []).length) st
                ((x : Int) + p.2) ((y : Int) + p.1)) (rest, visited)).2 := by
            intro c hc
            rcases (hqc2 c).mp hc with h | h
            · exact ha2 c (hrq c h)
            · exact h.1
          have hI1' : ∀ c ∈ (offsets.foldl
              (fun st p => enqueue b.length ((b.getD 0 []).length) st
                ((x : Int) + p.2) ((y : Int) + p.1)) (rest, visited)).2,
              FFReach b start c := by
            intro c hc
            rcases hb2 c hc with h | ⟨hnv, hcc, hcr, p, hp, hpe1, hpe2⟩
            · exact hI1 c h
            · exact FFReach.step (x, y) c (hI1 _ hheadv) hexp_head
                ⟨p, hp, hpe1, hpe2⟩ ⟨hcc, hcr⟩
          have hI2' : ∀ c ∈ (offsets.foldl
              (fun st p => enqueue b.length ((b.getD 0 []).length) st
                ((x : Int) + p.2) ((y : Int) + p.1)) (rest, visited)).2,
              inBB b c := by
            intro c hc
            rcases hb2 c hc with h | ⟨-, hcc, hcr, -⟩
            · exact hI2 c h
            · exact ⟨hcc, hcr⟩
          have hmid' : ffMid b (fun c => c ∈ (offsets.foldl
              (fun st p => enqueue b.length ((b.getD 0 []).length) st
                ((x : Int) + p.2) ((y : Int) + p.1)) (rest, visited)).2 ∧
              c ∉ (offsets.foldl
              (fun st p => enqueue b.length ((b.getD 0 []).length) st
                ((x : Int) + p.2) ((y : Int) + p.1)) (rest, visited)).1)
              (setTile out y x { getTile out y x with isRevealed := true }) := by
            intro yy xx
            refine ⟨?_, ?_⟩
            · rintro ⟨⟨hin2, hni1⟩, hrev, hfl⟩
              by_cases hceq : (xx, yy) = (x, y)
              · have hxx : xx = x := congrArg Prod.fst hceq
                have hyy : yy = y := congrArg Prod.snd hceq
                subst hxx; subst hyy
                exact hself
              · rw [getTile_setTile_ne out y x _ yy xx (pairNe yy xx hceq)]
                have hvis : (xx, yy) ∈ visited := by
                  rcases hb2 (xx, yy) hin2 with h | ⟨hnv, -, -, -⟩
                  · exact h
                  · exact absurd ((hqc2 (xx, yy)).mpr (Or.inr ⟨hin2, hnv⟩)) hni1
                refine (hmid yy xx).1 ⟨⟨hvis, ?_⟩, hrev, hfl⟩
                intro hq
                rcases List.mem_cons.mp hq with h | h
                · exact hceq h
                · exact hni1 ((hqc2 (xx, yy)).mpr (Or.inl h))
            · rintro hpre
              by_cases hceq : (xx, yy) = (x, y)
              · exfalso
                have hxx : xx = x := congrArg Prod.fst hceq
                have hyy : yy = y := congrArg Prod.snd hceq
                subst hxx; subst hyy
                rcases hpre with hnp | h | h
                · refine hnp ⟨ha2 _ hheadv, ?_⟩
                  intro h1
                  rcases (hqc2 _).mp h1 with h | h
                  · exact (List.nodup_cons.mp hI4).1 h
                  · exact h.2 hheadv
                · rw [hbrev] at h; exact Bool.false_ne_true h
                · rw [hbfl] at h; exact Bool.false_ne_true h
              · rw [getTile_setTile_ne out y x _ yy xx (pairNe yy xx hceq)]
                rcases hpre with hnp | h | h
                · refine (hmid yy xx).2 (Or.inl ?_)
                  intro hPo
                  refine hnp ⟨ha2 _ hPo.1, ?_⟩
                  intro h1
                  rcases (hqc2 (xx, yy)).mp h1 with h | h
                  · exact hPo.2 (List.mem_cons_of_mem _ h)
                  · exact h.2 hPo.1
                · exact (hmid yy xx).2 (Or.inr (Or.inl h))
                · exact (hmid yy xx).2 (Or.inr (Or.inr h))
          have hI6' : ∀ c ∈ (offsets.foldl
              (fun st p => enqueue b.length ((b.getD 0 []).length) st
                ((x : Int) + p.2) ((y : Int) + p.1)) (rest, visited)).2,
              c ∉ (offsets.foldl
              (fun st p => enqueue b.length ((b.getD 0 []).length) st
                ((x : Int) + p.2) ((y : Int) + p.1)) (rest, visited)).1 →
              ffExpands b c → ∀ d, stepAdj c d → inBB b d →
              d ∈ (offsets.foldl
              (fun st p => enqueue b.length ((b.getD 0 []).length) st
                ((x : Int) + p.2) ((y : Int) + p.1)) (rest, visited)).2 := by
            intro c hc2 hn1 hexp d hd hbd
            by_cases hceq : c = (x, y)
            · subst hceq
              obtain ⟨p, hp, hpe1, hpe2⟩ := hd
              exact hcomp2 d hbd.1 hbd.2 ⟨p, hp, hpe1, hpe2⟩
            · have hvis : c ∈ visited := by
                rcases hb2 c hc2 with h | ⟨hnv, -, -, -⟩
                · exact h
                · exact absurd ((hqc2 c).mpr (Or.inr ⟨hc2, hnv⟩)) hn1
              have hnq : c ∉ (x, y) :: rest := by
                intro hq
                rcases List.mem_cons.mp hq with h | h
                · exact hceq h
                · exact hn1 ((hqc2 c).mpr (Or.inl h))
              exact ha2 d (hI6 c hvis hnq hexp d hd hbd)
          have hM' : ffMeasure b.length ((b.getD 0 []).length)
              (offsets.foldl
              (fun st p => enqueue b.length ((b.getD 0 []).length) st
                ((x : Int) + p.2) ((y : Int) + p.1)) (rest, visited)).1
              (offsets.foldl
              (fun st p => enqueue b.length ((b.getD 0 []).length) st
                ((x : Int) + p.2) ((y : Int) + p.1)) (rest, visited)).2 ≤ gas := by
            show 9 * unvisitedCount b.length ((b.getD 0 []).length) _ +
              List.length _ ≤ gas
            have h0 : 9 * unvisitedCount b.length ((b.getD 0 []).length) visited
                + ((x, y) :: rest).length ≤ gas + 1 := hM
            simp only [List.length_cons] at h0
            omega
          obtain ⟨V, hV1, hV2, hV3, hV4⟩ :=
            ih _ _ _ hshape2 hI1' hI2' hq2 hnd2 hmid' hI6' hM'
          exact ⟨V, fun c hc => hV1 c (ha2 c hc), hV2, hV3, hV4⟩
        · -- revealed tile does not propagate
          rename_i hcond2
          refine ih rest visited
            (setTile out y x { getTile out y x with isRevealed := true })
            hshape2 hI1 hI2
            (fun c hc => hI3 c (List.mem_cons_of_mem _ hc)) hI4.of_cons ?_ ?_ ?_
          · intro yy xx
            refine ⟨?_, ?_⟩
            · rintro ⟨⟨hvis, hnr⟩, hrev, hfl⟩
              by_cases hceq : (xx, yy) = (x, y)
              · have hxx : xx = x := congrArg Prod.fst hceq
                have hyy : yy = y := congrArg Prod.snd hceq
                subst hxx; subst hyy
                exact hself
              · rw [getTile_setTile_ne out y x _ yy xx (pairNe yy xx hceq)]
                refine (hmid yy xx).1 ⟨⟨hvis, ?_⟩, hrev, hfl⟩
                intro hq
                rcases List.mem_cons.mp hq with h | h
                · exact hceq h
                · exact hnr h
            · rintro hpre
              by_cases hceq : (xx, yy) = (x, y)
              · exfalso
                have hxx : xx = x := congrArg Prod.fst hceq
                have hyy : yy = y := congrArg Prod.snd hceq
                subst hxx; subst hyy
                rcases hpre with hnp | h | h
                · exact hnp ⟨hheadv, (List.nodup_cons.mp hI4).1⟩
                · rw [hbrev] at h; exact Bool.false_ne_true h
                · rw [hbfl] at h; exact Bool.false_ne_true h
              · rw [getTile_setTile_ne out y x _ yy xx (pairNe yy xx hceq)]
                rcases hpre with hnp | h | h
                · refine (hmid yy xx).2 (Or.inl ?_)
                  intro hPo
                  exact hnp ⟨hPo.1, fun hr => hPo.2 (List.mem_cons_of_mem _ hr)⟩
                · exact (hmid yy xx).2 (Or.inr (Or.inl h))
                · exact (hmid yy xx).2 (Or.inr (Or.inr h))
          · intro c hcv hcnr hexp d hd hbd
            by_cases hceq : c = (x, y)
            · exfalso
              rw [hceq] at hexp
              have hadjc : (getTile b y x).adjacentMines = 0 := hexp.2.2.1
              have hminec : (getTile b y x).isMine = false := hexp.2.2.2
              apply hcond2
              refine ⟨by rw [hout_b]; exact hadjc, ?_⟩
              rw [hout_b, hminec]
              exact Bool.false_ne_true
            · refine hI6 c hcv ?_ hexp d hd hbd
              intro hq
              rcases List.mem_cons.mp hq with h | h
              · exact hceq h
              · exact hcnr h
          · have h0 : 9 * unvisitedCount b.length ((b.getD 0 []).length) visited
                + ((x, y) :: rest).length ≤ gas + 1 := hM
            show 9 * unvisitedCount b.length ((b.getD 0 []).length) visited
                + rest.length ≤ gas
            simp only [List.length_cons] at h0
            omega

theorem enqueue_start (b : Board) (sx sy : Nat)
    (hsx : sx < ((b.getD 0 []).length)) (hsy : sy < b.length) :
    enqueue b.length ((b.getD 0 []).length) ([], []) sx sy
      = ([(sx, sy)], [(sx, sy)]) := by
  rcases enqueue_cases b.length ((b.getD 0 []).length) ([], []) sx sy
    with ⟨h, _⟩ | ⟨_, _, _, _, h, _⟩ | ⟨_, _, _, _, _, heq⟩
  · exfalso
    rcases h with h | h | h | h <;> omega
  · exact absurd h (List.not_mem_nil _)
  · rw [heq]
    simp [Int.toNat_natCast]

theorem ffLoop_nil (rows cols gas : Nat) (v : List (Nat × Nat)) (out : Board) :
    ffLoop rows cols gas [] v out = out := by
  cases gas with
  | zero => rfl
  | succ g => rfl

/-- Characterization of `revealFloodFill` through a sound and closed visited
set containing the start. -/
theorem revealFloodFill_spec (b : Board) (sx sy : Nat) (hrect : rect b)
    (hsx : sx < ((b.getD 0 []).length)) (hsy : sy < b.length) :
    ∃ V : List (Nat × Nat),
      ((sx, sy) ∈ V) ∧
      (∀ c ∈ V, FFReach b (sx, sy) c) ∧
      (∀ c ∈ V, ffExpands b c → ∀ d, stepAdj c d → inBB b d → d ∈ V) ∧
      ffMid b (fun c => c ∈ V) (revealFloodFill b sx sy) := by
  obtain ⟨V, hV1, hV2, hV3, hV4⟩ := ffLoop_characterized b (sx, sy) hrect
    (9 * b.length * ((b.getD 0 []).length) + 1) [(sx, sy)] [(sx, sy)] b
    (sameShape_refl b)
    (fun c hc => by
      rw [List.mem_singleton.mp hc]
      exact FFReach.start ⟨hsx, hsy⟩)
    (fun c hc => by
      rw [List.mem_singleton.mp hc]
      exact ⟨hsx, hsy⟩)
    (fun c hc => hc)
    (List.nodup_singleton _)
    (by
      intro yy xx
      refine ⟨?_, fun _ => rfl⟩
      rintro ⟨⟨h1, h2⟩, -, -⟩
      exact absurd h1 h2)
    (by
      intro c hc hnc
      exact absurd hc hnc)
    (by
      show 9 * unvisitedCount b.length ((b.getD 0 []).length) [(sx, sy)] + 1 ≤
        9 * b.length * ((b.getD 0 []).length) + 1
      have h2 := List.length_filter_le
        (fun c => !((([(sx, sy)] : List (Nat × Nat))).contains c))
        (ffCells b.length ((b.getD 0 []).length))
      rw [length_ffCells] at h2
      have h5 : 9 * b.length * ((b.getD 0 []).length) + 1 =
          9 * (((b.getD 0 []).length) * b.length) + 1 := by
        rw [Nat.mul_assoc, Nat.mul_comm b.length ((b.getD 0 []).length)]
      rw [h5]
      have h6 : unvisitedCount b.length ((b.getD 0 []).length) [(sx, sy)] ≤
          ((b.getD 0 []).length) * b.length := h2
      omega)
  refine ⟨V, hV1 (sx, sy) (List.mem_singleton.mpr rfl), hV2, hV3, ?_⟩
  have hgoal : ffMid b (fun c => c ∈ V)
      (ffLoop b.length ((b.getD 0 []).length)
        (9 * b.length * ((b.getD 0 []).length) + 1)
        (enqueue b.length ((b.getD 0 []).length) ([], []) sx sy).1
        (enqueue b.length ((b.getD 0 []).length) ([], []) sx sy).2 b) := by
    rw [enqueue_start b sx sy hsx hsy]
    exact hV4
  exact hgoal

/-- The claim's own notion of the region: the start together with everything
8-connected to it through in-bounds, unflagged tiles of zero adjacency.
This follows the specification's words, for comparison with the code's
behaviour. -/
inductive ZeroReach (b : Board) (start : Nat × Nat) : Nat × Nat → Prop
  | start : ZeroReach b start start
  | step (c d : Nat × Nat) : ZeroReach b start c → stepAdj c d → inBB b d →
      (getTile b d.2 d.1).adjacentMines = 0 →
      (getTile b d.2 d.1).isFlagged = false →
      ZeroReach b start d

/-- 1×3 board, no mines, all adjacency counts 0, middle tile already
revealed: flood fill from the left tile stops at the revealed middle tile. -/
def cexBoard : Board :=
  [[⟨0, 0, false, false, false, 0⟩,
    ⟨1, 0, false, true, false, 0⟩,
    ⟨2, 0, false, false, false, 0⟩]]

/-- Counterexample to C5 as stated: on `cexBoard` — adjacency-consistent, no
flags anywhere — the tile `(2,0)` belongs to the maximal 8-connected
zero-adjacency region of the hidden zero start `(0,0)`, yet flood fill from
`(0,0)` leaves it hidden: the already-revealed middle zero tile is skipped on
dequeue and never propagates. -/
theorem flood_fill_misses_zero_region :
    adjConsistent cexBoard ∧
    (getTile cexBoard 0 0).adjacentMines = 0 ∧
    (getTile cexBoard 0 0).isRevealed = false ∧
    (∀ y x : Nat, (getTile cexBoard y x).isFlagged = false) ∧
    ZeroReach cexBoard (0, 0) (2, 0) ∧
    (getTile (revealFloodFill cexBoard 0 0) 0 2).isRevealed = false := by
  refine ⟨?_, by decide, by decide, ?_, ?_, by decide⟩
  · intro y x hy hx
    have hy1 : y < 1 := hy
    interval_cases y
    have hx1 : x < 3 := hx
    interval_cases x
    · exact ⟨by decide, by decide⟩
    · exact ⟨by decide, by decide⟩
    · exact ⟨by decide, by decide⟩
  · intro y x
    by_cases hy : y < 1
    · by_cases hx : x < 3
      · have hy1 : y < 1 := hy
        interval_cases y
        have hx1 : x < 3 := hx
        interval_cases x
        · decide
        · decide
        · decide
      · have hoc : ((cexBoard.getD y []).length) ≤ x := by
          have hy1 : y < 1 := hy
          interval_cases y
          show 3 ≤ x
          omega
        rw [getTile_oob_col cexBoard y x hoc]
        decide
    · have hor : cexBoard.length ≤ y := by
        show 1 ≤ y
        omega
      rw [getTile_oob_row cexBoard y x hor]
      decide
  · refine ZeroReach.step (1, 0) (2, 0)
      (ZeroReach.step (0, 0) (1, 0) ZeroReach.start
        ⟨(0, 1), by decide, by decide, by decide⟩
        ⟨by decide, by decide⟩ (by decide) (by decide))
      ⟨(0, 1), by decide, by decide, by decide⟩
      ⟨by decide, by decide⟩ (by decide) (by decide)

/-- C5 (amended): on a rectangular board, flood fill from an in-bounds start
reveals exactly the tiles that were already revealed plus the unflagged tiles
`FFReach`-reachable from the start — i.e. reachable by king-moves that only
pass through hidden, unflagged, zero-adjacency non-mine tiles; every other
field of every tile is untouched, and when the start tile is already revealed
the board is returned unchanged (idempotence). -/
theorem flood_fill_reveals_reachable_closure (b : Board) (sx sy : Nat)
    (hrect : rect b) (hsx : sx < ((b.getD 0 []).length)) (hsy : sy < b.length) :
    (∀ y x : Nat,
      (getTile (revealFloodFill b sx sy) y x).isRevealed = true ↔
        ((getTile b y x).isRevealed = true ∨
          (FFReach b (sx, sy) (x, y) ∧ (getTile b y x).isFlagged = false))) ∧
    RevOnly b (revealFloodFill b sx sy) ∧
    ((getTile b sy sx).isRevealed = true → revealFloodFill b sx sy = b) := by
  obtain ⟨V, hstartV, hsound, hclosed, hmid⟩ :=
    revealFloodFill_spec b sx sy hrect hsx hsy
  have hsub : ∀ c, FFReach b (sx, sy) c → c ∈ V := by
    intro c hc
    induction hc with
    | start h => exact hstartV
    | step c d hcc hexp hadj hbd ih => exact hclosed c ih hexp d hadj hbd
  refine ⟨?_, revealFloodFill_revOnly b sx sy, ?_⟩
  · intro yy xx
    constructor
    · intro hfin
      by_cases hbrev : (getTile b yy xx).isRevealed = true
      · exact Or.inl hbrev
      · have hbrev' : (getTile b yy xx).isRevealed = false :=
          Bool.eq_false_iff.mpr hbrev
        by_cases hbfl : (getTile b yy xx).isFlagged = true
        · exfalso
          have h := (hmid yy xx).2 (Or.inr (Or.inr hbfl))
          rw [h, hbrev'] at hfin
          exact Bool.false_ne_true hfin
        · have hbfl' : (getTile b yy xx).isFlagged = false :=
            Bool.eq_false_iff.mpr hbfl
          by_cases hmem : (xx, yy) ∈ V
          · exact Or.inr ⟨hsound _ hmem, hbfl'⟩
          · exfalso
            have h := (hmid yy xx).2 (Or.inl hmem)
            rw [h, hbrev'] at hfin
            exact Bool.false_ne_true hfin
    · rintro (h | ⟨hreach, hfl⟩)
      · have h2 := (hmid yy xx).2 (Or.inr (Or.inl h))
        rw [h2]
        exact h
      · by_cases hbrev : (getTile b yy xx).isRevealed = true
        · have h2 := (hmid yy xx).2 (Or.inr (Or.inl hbrev))
          rw [h2]
          exact hbrev
        · have hbrev' : (getTile b yy xx).isRevealed = false :=
            Bool.eq_false_iff.mpr hbrev
          have h2 := (hmid yy xx).1 ⟨hsub _ hreach, hbrev', hfl⟩
          rw [h2]
  · intro hrev
    have hgoal : ffLoop b.length ((b.getD 0 []).length)
        (9 * b.length * ((b.getD 0 []).length) + 1) [(sx, sy)] [(sx, sy)] b
        = b := by
      simp only [ffLoop]
      rw [if_pos (Or.inl hrev)]
      exact ffLoop_nil _ _ _ _ _
    show ffLoop b.length ((b.getD 0 []).length)
        (9 * b.length * ((b.getD 0 []).length) + 1)
        (enqueue b.length ((b.getD 0 []).length) ([], []) sx sy).1
        (enqueue b.length ((b.getD 0 []).length) ([], []) sx sy).2 b = b
    rw [enqueue_start b sx sy hsx hsy]
    exact hgoal

/-! ## Witnesses at concrete inputs -/

theorem reveal_first_click_safe_witness :
    (getTile (reveal (fun i => i) 0
      (initialState 4 4 1 Difficulty.Custom) 1 1).board 0 0).isMine = false :=
  reveal_first_click_safe (fun i => i) 0 4 4 1 Difficulty.Custom 1 1
    (by decide) (by decide) (by decide) (by decide) (by decide) (by decide)
    (by decide) (by decide) 0 0 (by decide) (by decide) (by decide) (by decide)

theorem status_transitions_and_terminality_witness :
    (chord { initialState 2 2 1 Difficulty.Custom with
      status := GameStatus.Lost } 0 0).board =
      ({ initialState 2 2 1 Difficulty.Custom with
        status := GameStatus.Lost } : GameState).board ∧
    (reveal (fun i => i) 0 { initialState 2 2 1 Difficulty.Custom with
      status := GameStatus.Lost } 0 0).status = GameStatus.Lost := by
  have h := (status_transitions_and_terminality (fun i => i) 0
    { initialState 2 2 1 Difficulty.Custom with status := GameStatus.Lost }
    0 0).2 (Or.inr rfl)
  exact ⟨h.2.2.1.1, h.1.2⟩

theorem chord_noop_unless_eligible_witness :
    chord (initialState 2 2 1 Difficulty.Custom) 0 0 =
      initialState 2 2 1 Difficulty.Custom :=
  chord_noop_unless_eligible (initialState 2 2 1 Difficulty.Custom) 0 0
    (fun h => by
      have h1 := h.1
      simp [initialState] at h1)

theorem toggleFlag_spec_witness :
    (toggleFlag (initialState 1 1 0 Difficulty.Custom) 0 0).flagsPlaced = 1 ∧
    0 ≤ (toggleFlag (initialState 1 1 0 Difficulty.Custom) 0 0).minesLeft := by
  have h := ((toggleFlag_spec (initialState 1 1 0 Difficulty.Custom) 0 0).2
    { x := 0, y := 0, isMine := false, isRevealed := false,
      isFlagged := false, adjacentMines := 0 }
    (by rfl) (by rintro (h | h) <;> simp [initialState] at h)).2 rfl
  refine ⟨?_, h.2.2.2⟩
  rw [h.2.1]
  rfl

theorem newGame_no_validation_witness :
    getTile (newGame 2 3 1 Difficulty.Custom).board 1 2 =
      { x := 2, y := 1, isMine := false, isRevealed := false,
        isFlagged := false, adjacentMines := 0 } :=
  (newGame_no_validation 2 3 1 Difficulty.Custom).2.2.2.2.2.2.2 1 2
    (by decide) (by decide)

theorem flood_fill_reveals_reachable_closure_witness :
    (getTile (revealFloodFill cexBoard 0 0) 0 0).isRevealed = true :=
  ((flood_fill_reveals_reachable_closure cexBoard 0 0
      (by
        intro y hy
        have hy1 : y < 1 := hy
        interval_cases y
        rfl)
      (by decide) (by decide)).1 0 0).mpr
    (Or.inr ⟨FFReach.start ⟨by decide, by decide⟩, by decide⟩)

end Minesweeper
